import Mathlib

/-!
# Verification of the cubeslider reconfiguration core

A shallow embedding of the sliding-cube reconfiguration core
(`configuration.ts`, `move.ts`, `gather.ts`, `compact.ts`, `world.ts`) in
Lean 4, together with theorems settling the specification claims.

Conventions:
* `Position` is an integer triple, as in the source.
* The sparse 3-level grid (`worldGrid` in the source) is modelled as an
  association list from positions to cell contents; `getCell(p).CubeId = v`
  becomes prepending the entry `(p, v)`, which has the same lookup
  semantics as the in-place mutation.
* TypeScript methods that can `throw` are modelled in the `Except String`
  monad; methods that cannot throw are plain functions.
* While-loops and DFS recursions are modelled with an explicit fuel
  parameter; the fuel passed at every call site is a provable upper bound
  on the number of loop iterations, so the embedded functions agree with
  the source loops (comments at each definition justify the bound).
-/

deriving instance DecidableEq for Except

namespace CubeSlider

/-- An integer coordinate triple, as in `type Position = [number, number, number]`. -/
abbrev Position := Int × Int × Int

/-- The six direction letters of the move alphabet: lowercase = negative
direction, uppercase = positive direction. -/
inductive Letter
  | x | X | y | Y | z | Z
deriving DecidableEq, Repr

/-- One step of `Move.targetPositionFromFields`: apply a single direction
letter to a position (`x--`, `X++`, etc.). -/
def stepLetter (p : Position) : Letter → Position
  | .x => (p.1 - 1, p.2.1, p.2.2)
  | .X => (p.1 + 1, p.2.1, p.2.2)
  | .y => (p.1, p.2.1 - 1, p.2.2)
  | .Y => (p.1, p.2.1 + 1, p.2.2)
  | .z => (p.1, p.2.1, p.2.2 - 1)
  | .Z => (p.1, p.2.1, p.2.2 + 1)

/-- A move direction: a single-letter slide or a two-letter corner
(convex) transition, mirroring the direction strings of `move.ts`. -/
inductive Direction
  | slide (a : Letter)
  | corner (a b : Letter)
deriving DecidableEq, Repr

/-- `moveDirections` from `move.ts`: the 30 legal direction strings, in
source order. -/
def moveDirections : List Direction :=
  [.slide .x, .slide .y, .slide .z, .slide .X, .slide .Y, .slide .Z,
   .corner .x .y, .corner .x .Y, .corner .x .z, .corner .x .Z,
   .corner .y .x, .corner .y .X, .corner .y .z, .corner .y .Z,
   .corner .z .x, .corner .z .X, .corner .z .y, .corner .z .Y,
   .corner .X .y, .corner .X .Y, .corner .X .z, .corner .X .Z,
   .corner .Y .x, .corner .Y .X, .corner .Y .z, .corner .Y .Z,
   .corner .Z .x, .corner .Z .X, .corner .Z .y, .corner .Z .Y]

/-- `Move.targetPositionFromFields`: fold the direction letters over the
source position. -/
def targetPosition (p : Position) : Direction → Position
  | .slide a => stepLetter p a
  | .corner a b => stepLetter (stepLetter p a) b

/-- A `Move` value: the source cell and the direction.  (The TypeScript
`Move` also carries a reference to its `Configuration`; in the embedding
the configuration is passed explicitly to each operation.) -/
structure Move where
  position : Position
  direction : Direction
deriving DecidableEq, Repr

/-- `Move.sourcePosition`. -/
def Move.sourcePosition (m : Move) : Position := m.position

/-- `Move.targetPosition`. -/
def Move.target (m : Move) : Position := targetPosition m.position m.direction

/-- `ComponentStatus` from `cube.ts`. -/
inductive ComponentStatus
  | LINK_CUT | LINK_STABLE | CHUNK_CUT | CHUNK_STABLE | CONNECTOR | NONE
deriving DecidableEq, Repr

/-- An RGB color (`Color` from `cube.ts`); only carried, never branched on
by the algorithms. -/
structure Color where
  r : Int
  g : Int
  b : Int
deriving DecidableEq, Repr

/-- `Color.BLUE`, the default color used by `World.deserialize`. -/
def Color.BLUE : Color := ⟨68, 187, 248⟩

/-- The algorithmically relevant fields of a `Cube` (`cube.ts`): current
position, reset position, color, and the derived component attributes. -/
structure Cube where
  p : Position
  resetPosition : Position
  color : Color
  componentStatus : ComponentStatus
  heavyChunk : Bool
  chunkId : Int
deriving DecidableEq, Repr

/-- The `Cube` constructor: both `p` and `resetPosition` are set to the
given coordinates, status is `NONE`, `heavyChunk` false, `chunkId` −1. -/
def Cube.mk' (p : Position) (color : Color) : Cube :=
  { p := p, resetPosition := p, color := color,
    componentStatus := .NONE, heavyChunk := false, chunkId := -1 }

/-- `Cube.setComponentStatus(componentStatus, heavyChunk = false)`. -/
def Cube.setComponentStatus (c : Cube) (s : ComponentStatus) (heavy : Bool := false) : Cube :=
  { c with componentStatus := s, heavyChunk := heavy }

/-- `Cube.setChunkId`. -/
def Cube.setChunkId (c : Cube) (id : Int) : Cube := { c with chunkId := id }

/-- The sparse grid of `WorldCell`s, as an association list: the value of
a cell is the `CubeId` field (`none` = empty cell).  A position missing
from the list is a cell that was never allocated, whose `CubeId` reads as
`null`; hence lookup collapses both cases to `none`. -/
abbrev Grid := List (Position × Option Nat)

/-- Reading `getCell(p).CubeId`. -/
def gridGet (g : Grid) (p : Position) : Option Nat :=
  match g.find? (fun e => decide (e.1 = p)) with
  | some e => e.2
  | none => none

/-- Writing `getCell(p).CubeId = v`.  Prepending shadows older entries,
which has the same lookup semantics as mutating the cell in place. -/
def gridSet (g : Grid) (p : Position) (v : Option Nat) : Grid :=
  (p, v) :: g

theorem gridGet_gridSet (g : Grid) (p q : Position) (v : Option Nat) :
    gridGet (gridSet g p v) q = if q = p then v else gridGet g q := by
  by_cases h : q = p
  · subst h; simp [gridGet, gridSet, List.find?]
  · simp only [gridGet, gridSet, List.find?]
    have : decide ((p, v).1 = q) = false := by simpa using fun h' => h h'.symm
    rw [this]
    simp [h]

/-- The grid/array state of a `Configuration` (`configuration.ts`):
the dense `cubes` array plus the sparse position grid. -/
structure Configuration where
  cubes : List Cube
  grid : Grid
deriving DecidableEq, Repr

/-- The empty configuration (`new Configuration()`). -/
def Configuration.empty : Configuration := { cubes := [], grid := [] }

/-- The part of a configuration that the graph/search routines read: the
cube positions (in array order) and the grid.  All connectivity routines
of `configuration.ts` access cubes only through `cubes[i].p` and the grid,
so they are defined over this view. -/
structure Occupancy where
  ps : List Position
  grid : Grid
deriving DecidableEq, Repr

/-- Forget the non-positional cube fields. -/
def Configuration.occ (c : Configuration) : Occupancy :=
  { ps := c.cubes.map (·.p), grid := c.grid }

/-- `getCubeId(p)` — the raw cell content. -/
def Occupancy.getCubeId (o : Occupancy) (p : Position) : Option Nat :=
  gridGet o.grid p

/-- `getCube(p)`, seen through the occupancy view: the position of the
cube stored at cell `p` (`none` when the cell is empty or the stored id is
out of range, in which case the source would yield `null`/`undefined`). -/
def Occupancy.getCubeP (o : Occupancy) (p : Position) : Option Position :=
  match gridGet o.grid p with
  | some id => o.ps[id]?
  | none => none

/-- `hasCube(p)` (`!!this.getCube(p)`). -/
def Occupancy.hasCube (o : Occupancy) (p : Position) : Bool :=
  (o.getCubeP p).isSome

/-- `getCube(p)` at the configuration level. -/
def Configuration.getCube (c : Configuration) (p : Position) : Option Cube :=
  match gridGet c.grid p with
  | some id => c.cubes[id]?
  | none => none

/-- `hasCube(p)` at the configuration level. -/
def Configuration.hasCube (c : Configuration) (p : Position) : Bool :=
  (c.getCube p).isSome

theorem getCube_occ_isSome (c : Configuration) (p : Position) :
    c.hasCube p = (c.occ).hasCube p := by
  simp only [Configuration.hasCube, Configuration.getCube, Occupancy.hasCube,
    Occupancy.getCubeP, Configuration.occ]
  cases gridGet c.grid p with
  | none => rfl
  | some id =>
      simp only []
      rcases h : c.cubes[id]? with _ | cube
      · simp [List.getElem?_map, h]
      · simp [List.getElem?_map, h]

/-- One entry of the `hasNeighbors` map for a single letter key:
`has['x']`, `has['X']`, …. -/
def Occupancy.hasNbr (o : Occupancy) (p : Position) (a : Letter) : Bool :=
  o.hasCube (stepLetter p a)

/-- One entry of the `hasNeighbors` map for a two-letter key:
`has['xy']` is the cell `[x−1, y−1, z]`, i.e. both letters applied. -/
def Occupancy.hasNbr2 (o : Occupancy) (p : Position) (a b : Letter) : Bool :=
  o.hasCube (stepLetter (stepLetter p a) b)

/-- The support pattern of a slide (the six single-letter cases of the
`isValidIgnoreConnectivity` switch): some orthogonal face-neighbor plus
the matching diagonal in the slide direction. -/
def slidePattern (o : Occupancy) (p : Position) : Letter → Bool
  | .x =>
      (o.hasNbr p .y && o.hasNbr2 p .x .y) || (o.hasNbr p .Y && o.hasNbr2 p .x .Y) ||
      (o.hasNbr p .z && o.hasNbr2 p .x .z) || (o.hasNbr p .Z && o.hasNbr2 p .x .Z)
  | .X =>
      (o.hasNbr p .y && o.hasNbr2 p .X .y) || (o.hasNbr p .Y && o.hasNbr2 p .X .Y) ||
      (o.hasNbr p .z && o.hasNbr2 p .X .z) || (o.hasNbr p .Z && o.hasNbr2 p .X .Z)
  | .y =>
      (o.hasNbr p .x && o.hasNbr2 p .x .y) || (o.hasNbr p .X && o.hasNbr2 p .X .y) ||
      (o.hasNbr p .z && o.hasNbr2 p .y .z) || (o.hasNbr p .Z && o.hasNbr2 p .y .Z)
  | .Y =>
      (o.hasNbr p .x && o.hasNbr2 p .x .Y) || (o.hasNbr p .X && o.hasNbr2 p .X .Y) ||
      (o.hasNbr p .z && o.hasNbr2 p .Y .z) || (o.hasNbr p .Z && o.hasNbr2 p .Y .Z)
  | .z =>
      (o.hasNbr p .x && o.hasNbr2 p .x .z) || (o.hasNbr p .X && o.hasNbr2 p .X .z) ||
      (o.hasNbr p .y && o.hasNbr2 p .y .z) || (o.hasNbr p .Y && o.hasNbr2 p .Y .z)
  | .Z =>
      (o.hasNbr p .x && o.hasNbr2 p .x .Z) || (o.hasNbr p .X && o.hasNbr2 p .X .Z) ||
      (o.hasNbr p .y && o.hasNbr2 p .y .Z) || (o.hasNbr p .Y && o.hasNbr2 p .Y .Z)

/-- `Move.isValidIgnoreConnectivity` from `move.ts`: the target cell must
be empty and the direction-specific support pattern must hold. -/
def isValidIgnoreConnectivity (o : Occupancy) (p : Position) (d : Direction) : Bool :=
  if (o.getCubeP (targetPosition p d)).isSome then false
  else
    match d with
    | .slide a => slidePattern o p a
    | .corner a b => !(o.hasNbr p a) && o.hasNbr p b

/-- C5.  For every two-letter (corner) direction `AB` and every position,
the move is valid (ignoring connectivity) iff the target cell is empty,
the face-neighbor cell in direction `A` is empty, and the face-neighbor
cell in direction `B` holds a cube.  Stated for all letter pairs, which
covers the 24 corner directions of `moveDirections`. -/
theorem corner_move_valid_iff (o : Occupancy) (p : Position) (a b : Letter) :
    isValidIgnoreConnectivity o p (.corner a b) = true ↔
      (o.hasCube (targetPosition p (.corner a b)) = false ∧
       o.hasCube (stepLetter p a) = false ∧
       o.hasCube (stepLetter p b) = true) := by
  simp only [isValidIgnoreConnectivity, Occupancy.hasCube, Occupancy.hasNbr, targetPosition]
  by_cases h : (o.getCubeP (stepLetter (stepLetter p a) b)).isSome
  · simp [h]
  · simp [h, Bool.and_eq_true, Bool.not_eq_true']

/-! ## The grid/array index invariant and the unmarked mutations -/

/-- The index invariant of `Configuration`: the grid cell at `cubes[i].p`
stores id `i` for every index `i`, and every grid cell whose effective
content is a non-null id refers to a cube whose position is that cell. -/
def wf (c : Configuration) : Bool :=
  ((List.range c.cubes.length).all fun i =>
      gridGet c.grid (((c.cubes[i]?).map (·.p)).getD (0, 0, 0)) == some i) &&
  (c.grid.all fun e =>
      match gridGet c.grid e.1 with
      | none => true
      | some id => ((c.cubes[id]?).map (·.p)) == some e.1)

theorem wf_idx {c : Configuration} (h : wf c = true) {i : Nat}
    (hi : i < c.cubes.length) : gridGet c.grid (c.cubes[i].p) = some i := by
  rw [wf, Bool.and_eq_true] at h
  have h1 := h.1
  rw [List.all_eq_true] at h1
  have := h1 i (List.mem_range.mpr hi)
  rw [List.getElem?_eq_getElem hi] at this
  simpa using this

theorem wf_lookup {c : Configuration} (h : wf c = true) {p : Position} {id : Nat}
    (hid : gridGet c.grid p = some id) :
    ∃ hlt : id < c.cubes.length, c.cubes[id].p = p := by
  rw [wf, Bool.and_eq_true] at h
  have h2 := h.2
  rw [List.all_eq_true] at h2
  have hfind : c.grid.find? (fun e => decide (e.1 = p)) ≠ none := by
    intro hnone
    rw [gridGet, hnone] at hid
    exact Option.noConfusion hid
  rcases Option.ne_none_iff_exists'.mp hfind with ⟨e, he⟩
  have hmem : e ∈ c.grid := List.mem_of_find?_eq_some he
  have hkey : e.1 = p := by simpa using List.find?_some he
  have hval := h2 e hmem
  rw [hkey, hid] at hval
  have hval2 : (Option.map (fun x => x.p) c.cubes[id]? == some p) = true := hval
  rcases hx : c.cubes[id]? with _ | cube
  · rw [hx] at hval2; simp at hval2
  · have hlt : id < c.cubes.length := (List.getElem?_eq_some_iff.mp hx).choose
    refine ⟨hlt, ?_⟩
    rw [List.getElem?_eq_getElem hlt] at hval2
    simp only [Option.map_some', beq_iff_eq] at hval2
    injection hval2

theorem wf_pos_inj {c : Configuration} (h : wf c = true) {i j : Nat}
    (hi : i < c.cubes.length) (hj : j < c.cubes.length)
    (hp : c.cubes[i].p = c.cubes[j].p) : i = j := by
  have h1 := wf_idx h hi
  have h2 := wf_idx h hj
  rw [hp] at h1
  rw [h1] at h2
  injection h2

theorem wf_hasCube_iff {c : Configuration} (h : wf c = true) {p : Position} :
    c.hasCube p = true ↔ ∃ i, ∃ hlt : i < c.cubes.length, c.cubes[i].p = p := by
  constructor
  · intro hc
    rw [Configuration.hasCube, Configuration.getCube] at hc
    rcases hg : gridGet c.grid p with _ | id
    · rw [hg] at hc; simp at hc
    · rcases wf_lookup h hg with ⟨hlt, hp⟩
      exact ⟨id, hlt, hp⟩
  · rintro ⟨i, hlt, hp⟩
    have := wf_idx h hlt
    rw [hp] at this
    rw [Configuration.hasCube, Configuration.getCube, this]
    show (c.cubes[i]?).isSome = true
    rw [List.getElem?_eq_getElem hlt]
    rfl

theorem wf_getCube {c : Configuration} (h : wf c = true) {i : Nat}
    (hi : i < c.cubes.length) : c.getCube (c.cubes[i].p) = some c.cubes[i] := by
  rw [Configuration.getCube, wf_idx h hi]
  show c.cubes[i]? = some c.cubes[i]
  rw [List.getElem?_eq_getElem hi]

/-- `addCubeUnmarked` from `configuration.ts`: throws if the cell is
occupied, otherwise stores the new index in the grid and pushes the cube. -/
def addCubeUnmarked (c : Configuration) (cube : Cube) : Except String Configuration :=
  if c.hasCube cube.p then
    .error "Tried to insert Cube on top of another Cube"
  else
    .ok { cubes := c.cubes ++ [cube],
          grid := gridSet c.grid cube.p (some c.cubes.length) }

/-- `moveCubeUnmarked` from `configuration.ts`: throws if the target is
occupied; otherwise clears the source cell, stores the id in the target
cell and updates the cube's position.  The mutation of the `cube` object
(`cube.p = [...to]`) is modelled as an update of the array entry that the
grid lookup of `cube.p` designates, which is the passed object at every
call site. -/
def moveCubeUnmarked (c : Configuration) (cube : Cube) (to' : Position) :
    Except String Configuration :=
  if c.hasCube to' then
    .error "Tried to move Cube on top of another Cube"
  else
    let id := gridGet c.grid cube.p
    let cubes' := match id with
      | some i => c.cubes.set i { (c.cubes[i]?.getD cube) with p := to' }
      | none => c.cubes
    .ok { cubes := cubes',
          grid := gridSet (gridSet c.grid cube.p none) to' id }

/-- The reindexing loop of `removeCubeUnmarked`:
`for i: getCell(cubes[i].p).CubeId = i`. -/
def reindexGrid (cubes : List Cube) (g : Grid) : Grid :=
  cubes.enum.foldl (fun g e => gridSet g e.2.p (some e.1)) g

/-- `removeCubeUnmarked` from `configuration.ts`: clears the cell, removes
the cube object from the array (`filter (b !== cube)`, modelled as erasing
the index the grid assigns to `cube.p`) and rewrites the ids of all
remaining cubes. -/
def removeCubeUnmarked (c : Configuration) (cube : Cube) : Configuration :=
  let cubes' := match gridGet c.grid cube.p with
    | some i => c.cubes.eraseIdx i
    | none => c.cubes
  { cubes := cubes',
    grid := reindexGrid cubes' (gridSet c.grid cube.p none) }

theorem reindexGrid_eq_append (cubes : List Cube) (g : Grid) :
    reindexGrid cubes g = (cubes.enum.map (fun e => (e.2.p, some e.1))).reverse ++ g := by
  rw [reindexGrid]
  generalize cubes.enum = l
  induction l generalizing g with
  | nil => simp
  | cons e t ih =>
    rw [List.foldl_cons, ih]
    simp [gridSet]

theorem gridGet_append (l g : Grid) (p : Position) :
    gridGet (l ++ g) p =
      match l.find? (fun e => decide (e.1 = p)) with
      | some e => e.2
      | none => gridGet g p := by
  rw [gridGet, List.find?_append]
  rcases h : l.find? (fun e => decide (e.1 = p)) with _ | e
  · rw [h, Option.none_or]; rfl
  · rw [h]; rfl

theorem find?_eq_some_of_unique {α : Type} {l : List α} {f : α → Bool} {e : α}
    (he : e ∈ l) (hf : f e = true) (huniq : ∀ e' ∈ l, f e' = true → e' = e) :
    l.find? f = some e := by
  induction l with
  | nil => cases he
  | cons a t ih =>
    rcases List.mem_cons.mp he with rfl | hmem
    · rw [List.find?_cons_of_pos _ hf]
    · by_cases ha : f a = true
      · have := huniq a (List.mem_cons_self a t) ha
        subst this
        rw [List.find?_cons_of_pos _ hf]
      · rw [List.find?_cons_of_neg _ ha]
        exact ih hmem (fun e' h' hf' => huniq e' (List.mem_cons_of_mem a h') hf')

theorem gridGet_reindexGrid_mem (cubes : List Cube) (g : Grid) {i : Nat}
    (hi : i < cubes.length)
    (hdist : ∀ j k, (hj : j < cubes.length) → (hk : k < cubes.length) →
      cubes[j].p = cubes[k].p → j = k) :
    gridGet (reindexGrid cubes g) (cubes[i].p) = some i := by
  rw [reindexGrid_eq_append, gridGet_append]
  have hfind : ((cubes.enum.map (fun e => (e.2.p, some e.1))).reverse).find?
      (fun e => decide (e.1 = cubes[i].p)) = some (cubes[i].p, some i) := by
    apply find?_eq_some_of_unique
    · rw [List.mem_reverse, List.mem_map]
      refine ⟨(i, cubes[i]), ?_, rfl⟩
      rw [List.mk_mem_enum_iff_getElem?]
      simp [hi]
    · simp
    · rintro e' he' hf'
      rw [List.mem_reverse, List.mem_map] at he'
      obtain ⟨⟨j, b⟩, hmem, rfl⟩ := he'
      rw [List.mk_mem_enum_iff_getElem?] at hmem
      have hj : j < cubes.length := (List.getElem?_eq_some_iff.mp hmem).choose
      rw [List.getElem?_eq_getElem hj] at hmem
      injection hmem with hmem
      subst hmem
      simp only [decide_eq_true_eq] at hf'
      have := hdist j i hj hi hf'
      subst this
      rfl
  rw [hfind]

theorem gridGet_reindexGrid_notmem (cubes : List Cube) (g : Grid) {p : Position}
    (hp : ∀ b ∈ cubes, b.p ≠ p) :
    gridGet (reindexGrid cubes g) p = gridGet g p := by
  rw [reindexGrid_eq_append, gridGet_append]
  have hfind : ((cubes.enum.map (fun e => (e.2.p, some e.1))).reverse).find?
      (fun e => decide (e.1 = p)) = none := by
    rw [List.find?_eq_none]
    rintro e he
    rw [List.mem_reverse, List.mem_map] at he
    obtain ⟨⟨j, b⟩, hmem, rfl⟩ := he
    rw [List.mk_mem_enum_iff_getElem?] at hmem
    have hb : b ∈ cubes := by
      have hj : j < cubes.length := (List.getElem?_eq_some_iff.mp hmem).choose
      rw [List.getElem?_eq_getElem hj] at hmem
      injection hmem with hmem
      subst hmem
      exact List.getElem_mem hj
    simpa using hp b hb
  rw [hfind]

/-- Introduction rule for `wf` in terms of pointwise grid lookups. -/
theorem wf_intro {c : Configuration}
    (h1 : ∀ i, (hi : i < c.cubes.length) → gridGet c.grid c.cubes[i].p = some i)
    (h2 : ∀ p id, gridGet c.grid p = some id →
      ∃ hlt : id < c.cubes.length, c.cubes[id].p = p) :
    wf c = true := by
  rw [wf, Bool.and_eq_true]
  constructor
  · rw [List.all_eq_true]
    intro i hi
    rw [List.mem_range] at hi
    have := h1 i hi
    rw [List.getElem?_eq_getElem hi]
    simp [this]
  · rw [List.all_eq_true]
    intro e _
    rcases hg : gridGet c.grid e.1 with _ | id
    · simp
    · obtain ⟨hlt, hp⟩ := h2 e.1 id hg
      simp [hg, List.getElem?_eq_getElem hlt, hp]

/-- C10, part for `addCubeUnmarked`: a successful insertion preserves the
index invariant. -/
theorem wf_addCubeUnmarked {c : Configuration} {cube : Cube} {c' : Configuration}
    (h : wf c = true) (hadd : addCubeUnmarked c cube = .ok c') : wf c' = true := by
  rw [addCubeUnmarked] at hadd
  by_cases hc : c.hasCube cube.p
  · rw [if_pos hc] at hadd; exact Except.noConfusion hadd
  · rw [if_neg hc] at hadd
    injection hadd with hadd
    subst hadd
    apply wf_intro
    · intro i hi
      simp only [List.length_append, List.length_cons, List.length_nil] at hi
      rcases Nat.lt_or_ge i c.cubes.length with hlt | hge
      · have hpos : (c.cubes ++ [cube])[i] = c.cubes[i] := List.getElem_append_left ..
        rw [hpos, gridGet_gridSet]
        have hne : c.cubes[i].p ≠ cube.p := by
          intro heq
          exact hc ((wf_hasCube_iff h).mpr ⟨i, hlt, heq⟩ ▸ rfl)
        rw [if_neg hne]
        exact wf_idx h hlt
      · have hi' : i = c.cubes.length := Nat.le_antisymm (by omega) hge
        subst hi'
        have hpos : (c.cubes ++ [cube])[c.cubes.length] = cube :=
          List.getElem_concat_length c.cubes cube c.cubes.length rfl (by simpa using hi)
        rw [hpos, gridGet_gridSet, if_pos rfl]
    · intro p id hg
      rw [gridGet_gridSet] at hg
      by_cases hp : p = cube.p
      · rw [if_pos hp] at hg
        injection hg with hg
        subst hg
        refine ⟨by simp, ?_⟩
        rw [List.getElem_concat_length c.cubes cube c.cubes.length rfl (by simp), hp]
      · rw [if_neg hp] at hg
        obtain ⟨hlt, hpe⟩ := wf_lookup h hg
        refine ⟨by simp; omega, ?_⟩
        exact congrArg Cube.p (List.getElem_append_left hlt) |>.trans hpe

/-- C10, part for `moveCubeUnmarked`: a successful move preserves the
index invariant. -/
theorem wf_moveCubeUnmarked {c : Configuration} {cube : Cube} {to' : Position}
    {c' : Configuration} (h : wf c = true)
    (hmv : moveCubeUnmarked c cube to' = .ok c') : wf c' = true := by
  simp only [moveCubeUnmarked] at hmv
  by_cases hc : c.hasCube to' = true
  · rw [if_pos hc] at hmv; exact Except.noConfusion hmv
  · rw [if_neg hc] at hmv
    have hto : ∀ j, (hj : j < c.cubes.length) → c.cubes[j].p ≠ to' := by
      intro j hj heq
      exact hc ((wf_hasCube_iff h).mpr ⟨j, hj, heq⟩)
    rcases hid : gridGet c.grid cube.p with _ | k
    · rw [hid] at hmv
      simp only [] at hmv
      injection hmv with hmv
      subst hmv
      apply wf_intro
      · intro i hi
        rw [gridGet_gridSet, gridGet_gridSet]
        have h2 : c.cubes[i].p ≠ cube.p := by
          intro heq
          have := wf_idx h hi
          rw [heq, hid] at this
          exact Option.noConfusion this
        rw [if_neg (hto i hi), if_neg h2]
        exact wf_idx h hi
      · intro p id hg
        rw [gridGet_gridSet] at hg
        by_cases hp1 : p = to'
        · rw [if_pos hp1] at hg; exact Option.noConfusion hg
        · rw [if_neg hp1, gridGet_gridSet] at hg
          by_cases hp2 : p = cube.p
          · rw [if_pos hp2] at hg; exact Option.noConfusion hg
          · rw [if_neg hp2] at hg
            exact wf_lookup h hg
    · rw [hid] at hmv
      simp only [] at hmv
      injection hmv with hmv
      subst hmv
      obtain ⟨hk, hkp⟩ := wf_lookup h hid
      apply wf_intro
      · intro i hi
        have hi' : i < c.cubes.length := by simpa using hi
        by_cases hik : i = k
        · subst hik
          rw [List.getElem_set_self hi]
          rw [gridGet_gridSet, if_pos rfl]
        · rw [List.getElem_set_ne (Ne.symm hik) hi]
          rw [gridGet_gridSet, gridGet_gridSet]
          have h2 : c.cubes[i].p ≠ cube.p := by
            intro heq
            rw [← hkp] at heq
            exact hik (wf_pos_inj h hi' hk heq)
          rw [if_neg (hto i hi'), if_neg h2]
          exact wf_idx h hi'
      · intro p id hg
        rw [gridGet_gridSet] at hg
        by_cases hp1 : p = to'
        · rw [if_pos hp1] at hg
          injection hg with hg
          subst hg
          refine ⟨by simpa using hk, ?_⟩
          rw [List.getElem_set_self (by simpa using hk)]
          exact hp1.symm
        · rw [if_neg hp1, gridGet_gridSet] at hg
          by_cases hp2 : p = cube.p
          · rw [if_pos hp2] at hg; exact Option.noConfusion hg
          · rw [if_neg hp2] at hg
            obtain ⟨hlt, hpe⟩ := wf_lookup h hg
            have hidk : id ≠ k := by
              intro heq
              subst heq
              rw [hkp] at hpe
              exact hp2 hpe.symm
            refine ⟨by simpa using hlt, ?_⟩
            rw [List.getElem_set_ne (Ne.symm hidk) (by simpa using hlt)]
            exact hpe

/-- C10, part for `removeCubeUnmarked`: removal (erase + full reindex)
preserves the index invariant. -/
theorem wf_removeCubeUnmarked {c : Configuration} {cube : Cube}
    (h : wf c = true) : wf (removeCubeUnmarked c cube) = true := by
  have hdist : ∀ j k, (hj : j < c.cubes.length) → (hk : k < c.cubes.length) →
      c.cubes[j].p = c.cubes[k].p → j = k := fun j k hj hk => wf_pos_inj h hj hk
  simp only [removeCubeUnmarked]
  rcases hid : gridGet c.grid cube.p with _ | k
  · simp only []
    apply wf_intro
    · intro i hi
      exact gridGet_reindexGrid_mem c.cubes _ hi hdist
    · intro p id hg
      by_cases hp : ∃ j, ∃ hj : j < c.cubes.length, c.cubes[j].p = p
      · obtain ⟨j, hj, hje⟩ := hp
        have hmem := gridGet_reindexGrid_mem c.cubes
          (gridSet c.grid cube.p none) hj hdist
        rw [hje] at hmem
        rw [hmem] at hg
        injection hg with hg
        subst hg
        exact ⟨hj, hje⟩
      · have hnm : ∀ b ∈ c.cubes, b.p ≠ p := by
          intro b hb heq
          obtain ⟨j, hj, hbj⟩ := List.getElem_of_mem hb
          exact hp ⟨j, hj, by rw [hbj]; exact heq⟩
        rw [gridGet_reindexGrid_notmem _ _ hnm, gridGet_gridSet] at hg
        by_cases hpc : p = cube.p
        · rw [if_pos hpc] at hg; exact Option.noConfusion hg
        · rw [if_neg hpc] at hg
          obtain ⟨hlt, hpe⟩ := wf_lookup h hg
          exact absurd ⟨id, hlt, hpe⟩ hp
  · simp only []
    obtain ⟨hk, hkp⟩ := wf_lookup h hid
    have hlen : (c.cubes.eraseIdx k).length = c.cubes.length - 1 :=
      List.length_eraseIdx_of_lt hk
    have hdist' : ∀ j j', (hj : j < (c.cubes.eraseIdx k).length) →
        (hj' : j' < (c.cubes.eraseIdx k).length) →
        (c.cubes.eraseIdx k)[j].p = (c.cubes.eraseIdx k)[j'].p → j = j' := by
      intro j j' hj hj' heq
      rcases Nat.lt_or_ge j k with hjk | hjk <;>
        rcases Nat.lt_or_ge j' k with hjk' | hjk'
      · rw [List.getElem_eraseIdx_of_lt _ _ _ hj hjk,
          List.getElem_eraseIdx_of_lt _ _ _ hj' hjk'] at heq
        exact hdist j j' _ _ heq
      · rw [List.getElem_eraseIdx_of_lt _ _ _ hj hjk,
          List.getElem_eraseIdx_of_ge _ _ _ hj' hjk'] at heq
        have := hdist j (j' + 1) _ _ heq
        omega
      · rw [List.getElem_eraseIdx_of_ge _ _ _ hj hjk,
          List.getElem_eraseIdx_of_lt _ _ _ hj' hjk'] at heq
        have := hdist (j + 1) j' _ _ heq
        omega
      · rw [List.getElem_eraseIdx_of_ge _ _ _ hj hjk,
          List.getElem_eraseIdx_of_ge _ _ _ hj' hjk'] at heq
        have := hdist (j + 1) (j' + 1) _ _ heq
        omega
    apply wf_intro
    · intro i hi
      exact gridGet_reindexGrid_mem _ _ hi hdist'
    · intro p id hg
      by_cases hp : ∃ j, ∃ hj : j < (c.cubes.eraseIdx k).length,
          (c.cubes.eraseIdx k)[j].p = p
      · obtain ⟨j, hj, hje⟩ := hp
        have hmem := gridGet_reindexGrid_mem (c.cubes.eraseIdx k)
          (gridSet c.grid cube.p none) hj hdist'
        rw [hje] at hmem
        rw [hmem] at hg
        injection hg with hg
        subst hg
        exact ⟨hj, hje⟩
      · have hnm : ∀ b ∈ c.cubes.eraseIdx k, b.p ≠ p := by
          intro b hb heq
          obtain ⟨j, hj, hbj⟩ := List.getElem_of_mem hb
          exact hp ⟨j, hj, by rw [hbj]; exact heq⟩
        rw [gridGet_reindexGrid_notmem _ _ hnm, gridGet_gridSet] at hg
        by_cases hpc : p = cube.p
        · rw [if_pos hpc] at hg; exact Option.noConfusion hg
        · rw [if_neg hpc] at hg
          obtain ⟨hlt, hpe⟩ := wf_lookup h hg
          have hidk : id ≠ k := by
            intro heq
            subst heq
            rw [hkp] at hpe
            exact hpc hpe.symm
          exfalso
          rcases Nat.lt_or_ge id k with hik | hik
          · have hj : id < (c.cubes.eraseIdx k).length := by omega
            refine hp ⟨id, hj, ?_⟩
            rw [List.getElem_eraseIdx_of_lt _ _ _ hj hik]
            exact hpe
          · have hik' : k < id := by omega
            have hj : id - 1 < (c.cubes.eraseIdx k).length := by omega
            refine hp ⟨id - 1, hj, ?_⟩
            rw [List.getElem_eraseIdx_of_ge _ _ _ hj (by omega)]
            have hsub : id - 1 + 1 = id := by omega
            simp only [hsub]
            exact hpe

/-! ## Connectivity: the BFS of `isConnected` -/

/-- `cutsContains` from `configuration.ts`. -/
def cutsContains (cuts : List (Nat × Nat)) (i j : Nat) : Bool :=
  cuts.any fun cut => (decide (cut.1 = i) && decide (cut.2 = j)) ||
    (decide (cut.2 = i) && decide (cut.1 = j))

/-- The six face-neighbor cells, in the order the source enumerates them
(`x−1`, `x+1`, `y−1`, `y+1`, `z−1`, `z+1`). -/
def sixNbrs (p : Position) : List Position :=
  [(p.1 - 1, p.2.1, p.2.2), (p.1 + 1, p.2.1, p.2.2),
   (p.1, p.2.1 - 1, p.2.2), (p.1, p.2.1 + 1, p.2.2),
   (p.1, p.2.1, p.2.2 - 1), (p.1, p.2.1, p.2.2 + 1)]

/-- The ids the `isConnected` BFS pushes from the cube with id `cubeId`
at position `p`: the contents of the six face-neighbor cells, kept when
the cell is truthy (`c.CubeId && …` — JavaScript truthiness drops both
`null` and the id `0`) and the edge is not in `cuts`. -/
def connPush (o : Occupancy) (cuts : List (Nat × Nat)) (cubeId : Nat)
    (p : Position) : List Nat :=
  (sixNbrs p).filterMap fun q =>
    match gridGet o.grid q with
    | some id =>
        if id ≠ 0 ∧ ¬cutsContains cuts id cubeId then some id else none
    | none => none

/-- The `while` loop of `isConnected`, with explicit fuel.  One unit of
fuel is one iteration; an element is enqueued only at start (1 element) or
when a cube is newly marked (≤ 6 elements per marking, ≤ n markings), so
the caller's fuel `7n + 1` dominates the iteration count. -/
def connBFS (o : Occupancy) (cuts : List (Nat × Nat)) :
    Nat → List Bool → Nat → List Nat → List Bool × Nat
  | 0, seen, count, _ => (seen, count)
  | _ + 1, seen, count, [] => (seen, count)
  | fuel + 1, seen, count, cubeId :: rest =>
      if seen.getD cubeId false then connBFS o cuts fuel seen count rest
      else
        match o.ps[cubeId]? with
        | none =>
            -- never reached when the grid ids are in range (the source
            -- would fault on `this.cubes[cubeId]` here)
            connBFS o cuts fuel seen count rest
        | some p =>
            connBFS o cuts fuel (seen.set cubeId true) (count + 1)
              (rest ++ connPush o cuts cubeId p)

/-- `Configuration.isConnected(cuts, skip?)`: BFS from cube 0 (or cube 1
when cube 0 is the skipped cube and more than one cube exists); the
skipped cube is pre-marked as seen. -/
def Occupancy.isConnected (o : Occupancy) (cuts : List (Nat × Nat))
    (skip : Option Position := none) : Bool :=
  if o.ps.length = 0 then true
  else
    let n := o.ps.length
    let seen0 : List Bool := List.replicate n false
    let init : List Bool × Nat × List Nat :=
      match skip with
      | some sp =>
          match gridGet o.grid sp with
          | some skipIndex =>
              (seen0.set skipIndex true, 1,
                if skipIndex = 0 ∧ 1 < n then [1] else [0])
          | none => (seen0, 0, [0])
      | none => (seen0, 0, [0])
    let res := connBFS o cuts (7 * n + 1) init.1 init.2.1 init.2.2
    decide (n = res.2)

/-- `isConnected` at the configuration level. -/
def Configuration.isConnected (c : Configuration) (cuts : List (Nat × Nat))
    (skip : Option Position := none) : Bool :=
  c.occ.isConnected cuts skip

/-- Membership in a BFS `seen` array. -/
def seenMem (seen : List Bool) (i : Nat) : Prop := seen.getD i false = true

theorem seenMem_set {seen : List Bool} {i j : Nat} (h : seenMem seen j) :
    seenMem (seen.set i true) j := by
  rcases eq_or_ne i j with rfl | hne
  · rw [seenMem, List.getD_eq_getElem?_getD] at h ⊢
    have hj : i < seen.length := by
      by_contra hn
      rw [List.getElem?_eq_none (by omega)] at h
      simp at h
    rw [List.getElem?_set_self hj]
    rfl
  · rw [seenMem, List.getD_eq_getElem?_getD] at h ⊢
    rw [List.getElem?_set_ne hne]
    exact h

theorem seenMem_set_self {seen : List Bool} {i : Nat} (h : i < seen.length) :
    seenMem (seen.set i true) i := by
  rw [seenMem, List.getD_eq_getElem?_getD, List.getElem?_set_self h]
  rfl

theorem seenMem_of_set {seen : List Bool} {i j : Nat}
    (h : seenMem (seen.set i true) j) : j = i ∨ seenMem seen j := by
  rcases eq_or_ne j i with rfl | hne
  · exact Or.inl rfl
  · right
    rw [seenMem, List.getD_eq_getElem?_getD] at h ⊢
    rw [List.getElem?_set_ne (Ne.symm hne)] at h
    exact h

theorem seenMem_lt {seen : List Bool} {i : Nat} (h : seenMem seen i) :
    i < seen.length := by
  by_contra hn
  rw [seenMem, List.getD_eq_getElem?_getD, List.getElem?_eq_none (by omega)] at h
  simp at h

theorem count_false_set_true {seen : List Bool} {i : Nat}
    (h : i < seen.length) (hf : seen.getD i false = false) :
    (seen.set i true).count false + 1 = seen.count false := by
  induction seen generalizing i with
  | nil => cases h
  | cons a t ih =>
    cases i with
    | zero =>
        simp only [List.getD_cons_zero] at hf
        subst hf
        simp [List.count_cons]
    | succ j =>
        simp only [List.getD_cons_succ] at hf
        have hj : j < t.length := by simpa using h
        have := ih hj hf
        simp only [List.set_cons_succ, List.count_cons]
        omega

theorem count_true_set_true {seen : List Bool} {i : Nat}
    (h : i < seen.length) (hf : seen.getD i false = false) :
    (seen.set i true).count true = seen.count true + 1 := by
  induction seen generalizing i with
  | nil => cases h
  | cons a t ih =>
    cases i with
    | zero =>
        simp only [List.getD_cons_zero] at hf
        subst hf
        simp [List.count_cons]
    | succ j =>
        simp only [List.getD_cons_succ] at hf
        have hj : j < t.length := by simpa using h
        have := ih hj hf
        simp only [List.set_cons_succ, List.count_cons]
        omega

theorem seenMem_all_of_count {seen : List Bool}
    (h : seen.count true = seen.length) {i : Nat} (hi : i < seen.length) :
    seenMem seen i := by
  rw [List.count_eq_length] at h
  rw [seenMem, List.getD_eq_getElem?_getD, List.getElem?_eq_getElem hi]
  exact (h seen[i] (List.getElem_mem hi)).symm

theorem count_of_seenMem_all {seen : List Bool}
    (h : ∀ i, i < seen.length → seenMem seen i) :
    seen.count true = seen.length := by
  rw [List.count_eq_length]
  intro b hb
  obtain ⟨i, hi, hbi⟩ := List.getElem_of_mem hb
  have := h i hi
  rw [seenMem, List.getD_eq_getElem?_getD, List.getElem?_eq_getElem hi] at this
  simp only [Option.getD_some] at this
  rw [← hbi, this]

theorem connPush_length_le (o : Occupancy) (cuts : List (Nat × Nat))
    (cubeId : Nat) (p : Position) : (connPush o cuts cubeId p).length ≤ 6 :=
  le_trans (List.length_filterMap_le _ _) (by rfl)

theorem mem_connPush {o : Occupancy} {cuts : List (Nat × Nat)} {i : Nat}
    {p : Position} {j : Nat} :
    j ∈ connPush o cuts i p ↔
      ∃ q ∈ sixNbrs p, gridGet o.grid q = some j ∧ j ≠ 0 ∧
        ¬cutsContains cuts j i = true := by
  rw [connPush, List.mem_filterMap]
  constructor
  · rintro ⟨q, hq, hval⟩
    rcases hg : gridGet o.grid q with _ | id
    · rw [hg] at hval; exact absurd hval (by simp)
    · rw [hg] at hval
      have hval2 : (if id ≠ 0 ∧ ¬cutsContains cuts id i = true then
          some id else none) = some j := hval
      split at hval2
      next hcond =>
        injection hval2 with hval2
        subst hval2
        exact ⟨q, hq, hg, hcond.1, hcond.2⟩
      next => exact absurd hval2 (by simp)
  · rintro ⟨q, hq, hg, h0, hcut⟩
    refine ⟨q, hq, ?_⟩
    simp only [hg]
    simp [h0, hcut]

theorem connBFS_mono (o : Occupancy) (cuts : List (Nat × Nat)) (fuel : Nat) :
    ∀ seen count queue j, seenMem seen j →
      seenMem (connBFS o cuts fuel seen count queue).1 j := by
  induction fuel with
  | zero => intro seen count queue j h; exact h
  | succ n ih =>
    intro seen count queue j h
    match queue with
    | [] => exact h
    | i :: rest =>
      rw [connBFS]
      by_cases hs : seen.getD i false
      · rw [if_pos hs]; exact ih _ _ _ _ h
      · rw [if_neg hs]
        rcases hp : o.ps[i]? with _ | p
        · exact ih _ _ _ _ h
        · exact ih _ _ _ _ (seenMem_set h)

/-- Soundness of the BFS: the final seen set stays inside any `P` that
contains the initial seen set and the queue, and that is closed under
pushing from unseen vertices. -/
theorem connBFS_sound (o : Occupancy) (cuts : List (Nat × Nat))
    (P : Nat → Prop) (fuel : Nat) :
    ∀ seen count queue,
      (∀ j, seenMem seen j → P j) →
      (∀ i ∈ queue, P i) →
      (∀ i p, P i → ¬seenMem seen i → o.ps[i]? = some p →
        ∀ j ∈ connPush o cuts i p, P j) →
      ∀ j, seenMem (connBFS o cuts fuel seen count queue).1 j → P j := by
  induction fuel with
  | zero => intro seen count queue hseen _ _ j hj; exact hseen j hj
  | succ n ih =>
    intro seen count queue hseen hqueue hclosed j hj
    match queue with
    | [] => exact hseen j hj
    | i :: rest =>
      rw [connBFS] at hj
      by_cases hs : seen.getD i false
      · rw [if_pos hs] at hj
        exact ih _ _ _ hseen (fun i' hi' => hqueue i' (List.mem_cons_of_mem _ hi'))
          hclosed j hj
      · rw [if_neg hs] at hj
        rcases hp : o.ps[i]? with _ | p
        · rw [hp] at hj
          exact ih _ _ _ hseen (fun i' hi' => hqueue i' (List.mem_cons_of_mem _ hi'))
            hclosed j hj
        · rw [hp] at hj
          refine ih _ _ _ ?_ ?_ ?_ j hj
          · intro j' hj'
            rcases seenMem_of_set hj' with rfl | hcase
            · exact hqueue j' (List.mem_cons_self _ _)
            · exact hseen j' hcase
          · intro i' hi'
            rcases List.mem_append.mp hi' with hcase | hcase
            · exact hqueue i' (List.mem_cons_of_mem _ hcase)
            · exact hclosed i p (hqueue i (List.mem_cons_self _ _)) hs hp i' hcase
          · intro i' p' hP hns hp'
            refine hclosed i' p' hP ?_ hp'
            intro hmem
            exact hns (seenMem_set hmem)

/-- Every queue element whose id is in range ends up seen, provided the
fuel dominates the potential `7·(unseen) + |queue|`. -/
theorem connBFS_queue_seen (o : Occupancy) (cuts : List (Nat × Nat))
    (hgb : ∀ p id, gridGet o.grid p = some id → id < o.ps.length)
    (fuel : Nat) :
    ∀ seen count queue,
      7 * seen.count false + queue.length ≤ fuel →
      seen.length = o.ps.length →
      (∀ j ∈ queue, j < o.ps.length) →
      ∀ i ∈ queue, seenMem (connBFS o cuts fuel seen count queue).1 i := by
  induction fuel with
  | zero =>
    intro seen count queue hfuel _ _ i hi
    have : queue.length = 0 := by omega
    rw [List.length_eq_zero] at this
    subst this
    cases hi
  | succ n ih =>
    intro seen count queue hfuel hlen hb i hi
    match queue with
    | [] => cases hi
    | i0 :: rest =>
      rw [connBFS]
      by_cases hs : seen.getD i0 false
      · rw [if_pos hs]
        rcases List.mem_cons.mp hi with rfl | hmem
        · exact connBFS_mono o cuts n seen count rest i hs
        · refine ih seen count rest ?_ hlen ?_ i hmem
          · simp only [List.length_cons] at hfuel; omega
          · intro j hj; exact hb j (List.mem_cons_of_mem _ hj)
      · rw [if_neg hs]
        have hi0 : i0 < o.ps.length := hb i0 (List.mem_cons_self _ _)
        rcases hp : o.ps[i0]? with _ | p
        · rw [List.getElem?_eq_none_iff] at hp; omega
        · have hi0' : i0 < seen.length := by omega
          have hcnt : (seen.set i0 true).count false + 1 = seen.count false :=
            count_false_set_true hi0' (by simpa using hs)
          have hfuel' : 7 * (seen.set i0 true).count false +
              (rest ++ connPush o cuts i0 p).length ≤ n := by
            have hc6 := connPush_length_le o cuts i0 p
            simp only [List.length_append, List.length_cons] at hfuel ⊢
            omega
          have hb' : ∀ j ∈ rest ++ connPush o cuts i0 p, j < o.ps.length := by
            intro j hj
            rcases List.mem_append.mp hj with hcase | hcase
            · exact hb j (List.mem_cons_of_mem _ hcase)
            · obtain ⟨q, _, hg, _, _⟩ := mem_connPush.mp hcase
              exact hgb q j hg
          rcases List.mem_cons.mp hi with rfl | hmem
          · exact connBFS_mono o cuts n _ _ _ i (seenMem_set_self hi0')
          · refine ih _ _ _ hfuel' (by simpa using hlen) hb' i
              (List.mem_append.mpr (Or.inl hmem))

/-- One push edge of the `isConnected` BFS: from the cube with id `i`
(which must exist) to each id its six neighbor cells contribute. -/
def pushStep (o : Occupancy) (cuts : List (Nat × Nat)) (i j : Nat) : Prop :=
  ∃ p, o.ps[i]? = some p ∧ j ∈ connPush o cuts i p

/-- On termination (enough fuel), the seen set is closed under push
edges, except at exempt vertices `E` (the pre-marked skipped cube, which
is never expanded). -/
theorem connBFS_closed (o : Occupancy) (cuts : List (Nat × Nat))
    (hgb : ∀ p id, gridGet o.grid p = some id → id < o.ps.length)
    (E : Nat → Prop) (fuel : Nat) :
    ∀ seen count queue,
      7 * seen.count false + queue.length ≤ fuel →
      seen.length = o.ps.length →
      (∀ j ∈ queue, j < o.ps.length) →
      (∀ i, seenMem seen i → E i ∨ ∀ j, pushStep o cuts i j →
        (seenMem seen j ∨ j ∈ queue)) →
      ∀ i, seenMem (connBFS o cuts fuel seen count queue).1 i →
        E i ∨ ∀ j, pushStep o cuts i j →
          seenMem (connBFS o cuts fuel seen count queue).1 j := by
  induction fuel with
  | zero =>
    intro seen count queue hfuel _ _ hinv i hi
    have : queue.length = 0 := by omega
    rw [List.length_eq_zero] at this
    subst this
    rcases hinv i hi with hE | hstep
    · exact Or.inl hE
    · refine Or.inr fun j hj => ?_
      rcases hstep j hj with hseen | hmem
      · exact hseen
      · cases hmem
  | succ n ih =>
    intro seen count queue hfuel hlen hb hinv i hi
    match queue with
    | [] =>
      rcases hinv i hi with hE | hstep
      · exact Or.inl hE
      · refine Or.inr fun j hj => ?_
        rcases hstep j hj with hseen | hmem
        · exact hseen
        · cases hmem
    | i0 :: rest =>
      rw [connBFS] at hi ⊢
      by_cases hs : seen.getD i0 false
      · rw [if_pos hs] at hi ⊢
        refine ih seen count rest ?_ hlen
          (fun j hj => hb j (List.mem_cons_of_mem _ hj)) ?_ i hi
        · simp only [List.length_cons] at hfuel; omega
        · intro i' hi'
          rcases hinv i' hi' with hE | hstep
          · exact Or.inl hE
          · refine Or.inr fun j hj => ?_
            rcases hstep j hj with hseen | hmem
            · exact Or.inl hseen
            · rcases List.mem_cons.mp hmem with rfl | hmem'
              · exact Or.inl hs
              · exact Or.inr hmem'
      · rw [if_neg hs] at hi ⊢
        have hi0 : i0 < o.ps.length := hb i0 (List.mem_cons_self _ _)
        revert hi
        rcases hp : o.ps[i0]? with _ | p
        · rw [List.getElem?_eq_none_iff] at hp; omega
        · intro hi
          have hi0' : i0 < seen.length := by omega
          have hcnt : (seen.set i0 true).count false + 1 = seen.count false :=
            count_false_set_true hi0' (by simpa using hs)
          have hfuel' : 7 * (seen.set i0 true).count false +
              (rest ++ connPush o cuts i0 p).length ≤ n := by
            have hc6 := connPush_length_le o cuts i0 p
            simp only [List.length_append, List.length_cons] at hfuel ⊢
            omega
          have hb' : ∀ j ∈ rest ++ connPush o cuts i0 p, j < o.ps.length := by
            intro j hj
            rcases List.mem_append.mp hj with hcase | hcase
            · exact hb j (List.mem_cons_of_mem _ hcase)
            · obtain ⟨q, _, hg, _, _⟩ := mem_connPush.mp hcase
              exact hgb q j hg
          refine ih _ _ _ hfuel' (by simpa using hlen) hb' ?_ i hi
          intro i' hi'
          rcases seenMem_of_set hi' with rfl | hold
          · refine Or.inr fun j hj => ?_
            obtain ⟨p', hp', hpush⟩ := hj
            rw [hp] at hp'
            injection hp' with hp'
            subst hp'
            exact Or.inr (List.mem_append.mpr (Or.inr hpush))
          · rcases hinv i' hold with hE | hstep
            · exact Or.inl hE
            · refine Or.inr fun j hj => ?_
              rcases hstep j hj with hseen | hmem
              · exact Or.inl (seenMem_set hseen)
              · rcases List.mem_cons.mp hmem with rfl | hmem'
                · exact Or.inl (seenMem_set_self hi0')
                · exact Or.inr (List.mem_append.mpr (Or.inl hmem'))

/-- The running count equals the number of marked entries. -/
theorem connBFS_count (o : Occupancy) (cuts : List (Nat × Nat)) (fuel : Nat) :
    ∀ seen count queue,
      seen.length = o.ps.length →
      count = seen.count true →
      (connBFS o cuts fuel seen count queue).2 =
        (connBFS o cuts fuel seen count queue).1.count true := by
  induction fuel with
  | zero => intro seen count queue _ hcount; exact hcount
  | succ n ih =>
    intro seen count queue hlen hcount
    match queue with
    | [] => exact hcount
    | i0 :: rest =>
      rw [connBFS]
      by_cases hs : seen.getD i0 false
      · rw [if_pos hs]; exact ih _ _ _ hlen hcount
      · rw [if_neg hs]
        rcases hp : o.ps[i0]? with _ | p
        · exact ih _ _ _ hlen hcount
        · have hi0 : i0 < o.ps.length := by
            by_contra hn
            rw [List.getElem?_eq_none (by omega)] at hp
            exact Option.noConfusion hp
          have hi0' : i0 < seen.length := by omega
          refine ih _ _ _ (by simpa using hlen) ?_
          rw [count_true_set_true hi0' (by simpa using hs), hcount]

/-- The BFS never changes the length of the seen array. -/
theorem connBFS_length (o : Occupancy) (cuts : List (Nat × Nat)) (fuel : Nat) :
    ∀ seen count queue,
      (connBFS o cuts fuel seen count queue).1.length = seen.length := by
  induction fuel with
  | zero => intro seen count queue; rfl
  | succ n ih =>
    intro seen count queue
    match queue with
    | [] => rfl
    | i0 :: rest =>
      rw [connBFS]
      by_cases hs : seen.getD i0 false
      · rw [if_pos hs]; exact ih _ _ _
      · rw [if_neg hs]
        rcases hp : o.ps[i0]? with _ | p
        · exact ih _ _ _
        · rw [ih _ _ _]
          exact List.length_set _ _ _

theorem seenMem_replicate_false {n j : Nat} :
    ¬seenMem (List.replicate n false) j := by
  intro h
  rw [seenMem, List.getD_eq_getElem?_getD] at h
  rcases Nat.lt_or_ge j n with hj | hj
  · rw [List.getElem?_eq_getElem (by simpa using hj)] at h
    simp at h
  · rw [List.getElem?_eq_none (by simpa using hj)] at h
    simp at h

/-- `isConnected(cuts)` without skip is true iff every cube id is
reachable from id 0 along BFS push edges. -/
theorem isConnected_none_char (o : Occupancy) (cuts : List (Nat × Nat))
    (hgb : ∀ p id, gridGet o.grid p = some id → id < o.ps.length)
    (hn : o.ps.length ≠ 0) :
    (o.isConnected cuts none = true ↔
      ∀ j, j < o.ps.length → Relation.ReflTransGen (pushStep o cuts) 0 j) := by
  rw [Occupancy.isConnected, if_neg hn]
  simp only [decide_eq_true_eq]
  have hlen : (connBFS o cuts (7 * o.ps.length + 1)
      (List.replicate o.ps.length false) 0 [0]).1.length = o.ps.length := by
    rw [connBFS_length, List.length_replicate]
  have hcount : (connBFS o cuts (7 * o.ps.length + 1)
      (List.replicate o.ps.length false) 0 [0]).2 =
      (connBFS o cuts (7 * o.ps.length + 1)
        (List.replicate o.ps.length false) 0 [0]).1.count true := by
    refine connBFS_count o cuts _ _ _ _ (List.length_replicate _ _) ?_
    rw [List.count_replicate]
    simp
  constructor
  · intro h j hj
    have hall : ∀ i, i < o.ps.length →
        seenMem (connBFS o cuts (7 * o.ps.length + 1)
          (List.replicate o.ps.length false) 0 [0]).1 i := by
      intro i hi
      refine seenMem_all_of_count ?_ (by omega)
      omega
    refine connBFS_sound o cuts
      (Relation.ReflTransGen (pushStep o cuts) 0) _ _ _ _ ?_ ?_ ?_ j (hall j hj)
    · intro j' hj'
      exact absurd hj' seenMem_replicate_false
    · intro i hi
      rcases List.mem_singleton.mp hi with rfl
      exact Relation.ReflTransGen.refl
    · intro i p hP _ hpi j' hj'
      exact Relation.ReflTransGen.tail hP ⟨p, hpi, hj'⟩
  · intro hall
    have hfuel : 7 * (List.replicate o.ps.length false).count false +
        ([0] : List Nat).length ≤ 7 * o.ps.length + 1 := by
      rw [List.count_replicate]
      simp
    have hb : ∀ j ∈ ([0] : List Nat), j < o.ps.length := by
      intro j hj
      rcases List.mem_singleton.mp hj with rfl
      omega
    have hseen : ∀ j, Relation.ReflTransGen (pushStep o cuts) 0 j →
        seenMem (connBFS o cuts (7 * o.ps.length + 1)
          (List.replicate o.ps.length false) 0 [0]).1 j := by
      intro j hr
      induction hr with
      | refl =>
          exact connBFS_queue_seen o cuts hgb _ _ _ _ hfuel
            (List.length_replicate _ _) hb 0 (List.mem_singleton.mpr rfl)
      | tail hr' hstep ih =>
          have hclosed := connBFS_closed o cuts hgb (fun _ => False) _ _ _ _
            hfuel (List.length_replicate _ _) hb
            (fun i hi => absurd hi seenMem_replicate_false) _ ih
          rcases hclosed with hF | hpush
          · cases hF
          · exact hpush _ hstep
    have hcnt2 : (connBFS o cuts (7 * o.ps.length + 1)
        (List.replicate o.ps.length false) 0 [0]).1.count true =
        (connBFS o cuts (7 * o.ps.length + 1)
          (List.replicate o.ps.length false) 0 [0]).1.length := by
      refine count_of_seenMem_all ?_
      intro i hi
      rw [hlen] at hi
      exact hseen i (hall i hi)
    omega

/-- `isConnected(cuts, skip)` when the skip cell holds cube `k`: true iff
every id other than `k` is reachable from the start cube along BFS push
edges whose sources avoid `k`. -/
theorem isConnected_skip_char (o : Occupancy) (cuts : List (Nat × Nat))
    (hgb : ∀ p id, gridGet o.grid p = some id → id < o.ps.length)
    {sp : Position} {k : Nat} (hk : gridGet o.grid sp = some k)
    (hn : o.ps.length ≠ 0) :
    (o.isConnected cuts (some sp) = true ↔
      ∀ j, j < o.ps.length → j = k ∨
        Relation.ReflTransGen (fun a b => pushStep o cuts a b ∧ a ≠ k)
          (if k = 0 ∧ 1 < o.ps.length then 1 else 0) j) := by
  have hkn : k < o.ps.length := hgb sp k hk
  rw [Occupancy.isConnected, if_neg hn]
  simp only [hk, decide_eq_true_eq]
  have hqeq : (if k = 0 ∧ 1 < o.ps.length then ([1] : List Nat) else [0]) =
      [if k = 0 ∧ 1 < o.ps.length then 1 else 0] := by
    split <;> rfl
  rw [hqeq]
  set start := if k = 0 ∧ 1 < o.ps.length then (1 : Nat) else 0 with hstart
  have hstartlt : start < o.ps.length := by
    rw [hstart]
    split
    · omega
    · omega
  have hklen : k < (List.replicate o.ps.length false).length := by
    simpa using hkn
  have hlen0 : ((List.replicate o.ps.length false).set k true).length =
      o.ps.length := by simp
  have hlen : (connBFS o cuts (7 * o.ps.length + 1)
      ((List.replicate o.ps.length false).set k true) 1 [start]).1.length =
      o.ps.length := by
    rw [connBFS_length]
    exact hlen0
  have hcount : (connBFS o cuts (7 * o.ps.length + 1)
      ((List.replicate o.ps.length false).set k true) 1 [start]).2 =
      (connBFS o cuts (7 * o.ps.length + 1)
        ((List.replicate o.ps.length false).set k true) 1 [start]).1.count
        true := by
    refine connBFS_count o cuts _ _ _ _ hlen0 ?_
    rw [count_true_set_true hklen (by simp), List.count_replicate]
    simp
  have hseen0 : ∀ j, seenMem ((List.replicate o.ps.length false).set k true) j
      → j = k := by
    intro j hj
    rcases seenMem_of_set hj with rfl | hmem
    · rfl
    · exact absurd hmem seenMem_replicate_false
  have hfuel : 7 * ((List.replicate o.ps.length false).set k true).count false
      + ([start] : List Nat).length ≤ 7 * o.ps.length + 1 := by
    have h1 := count_false_set_true hklen
      (by rw [List.getD_eq_getElem?_getD,
        List.getElem?_eq_getElem (by simpa using hkn)]; simp)
    rw [List.count_replicate] at h1
    simp only [beq_self_eq_true, if_pos] at h1
    simp only [List.length_cons, List.length_nil]
    omega
  have hb : ∀ j ∈ ([start] : List Nat), j < o.ps.length := by
    intro j hj
    rcases List.mem_singleton.mp hj with rfl
    exact hstartlt
  constructor
  · intro h j hj
    have hall : seenMem (connBFS o cuts (7 * o.ps.length + 1)
        ((List.replicate o.ps.length false).set k true) 1 [start]).1 j := by
      refine seenMem_all_of_count ?_ (by omega)
      omega
    refine connBFS_sound o cuts
      (fun j' => j' = k ∨ Relation.ReflTransGen
        (fun a b => pushStep o cuts a b ∧ a ≠ k) start j') _ _ _ _ ?_ ?_ ?_
        j hall
    · intro j' hj'
      exact Or.inl (hseen0 j' hj')
    · intro i hi
      rcases List.mem_singleton.mp hi with rfl
      exact Or.inr Relation.ReflTransGen.refl
    · intro i p hP hns hpi j' hj'
      have hik : i ≠ k := by
        intro heq
        subst heq
        exact hns (seenMem_set_self hklen)
      rcases hP with rfl | hr
      · exact absurd rfl hik
      · exact Or.inr (Relation.ReflTransGen.tail hr ⟨⟨p, hpi, hj'⟩, hik⟩)
  · intro hall
    have hseen : ∀ j, j < o.ps.length →
        seenMem (connBFS o cuts (7 * o.ps.length + 1)
          ((List.replicate o.ps.length false).set k true) 1 [start]).1 j := by
      intro j hj
      rcases hall j hj with rfl | hr
      · exact connBFS_mono o cuts _ _ _ _ _ (seenMem_set_self hklen)
      · clear hj
        induction hr with
        | refl =>
            exact connBFS_queue_seen o cuts hgb _ _ _ _ hfuel hlen0 hb
              start (List.mem_singleton.mpr rfl)
        | tail hr' hstep ih =>
            have hclosed := connBFS_closed o cuts hgb (fun i => i = k) _ _ _ _
              hfuel hlen0 hb (fun i hi => Or.inl (hseen0 i hi)) _ ih
            rcases hclosed with hE | hpush
            · exact absurd hE hstep.2
            · exact hpush _ hstep.1
    have hcnt2 : (connBFS o cuts (7 * o.ps.length + 1)
        ((List.replicate o.ps.length false).set k true) 1 [start]).1.count
        true = (connBFS o cuts (7 * o.ps.length + 1)
          ((List.replicate o.ps.length false).set k true) 1 [start]).1.length
        := by
      refine count_of_seenMem_all ?_
      intro i hi
      rw [hlen] at hi
      exact hseen i hi
    omega

/-! ## Component / chunk decomposition (`markComponents`, `findComponents`) -/

instance : Inhabited Cube := ⟨Cube.mk' (0, 0, 0) Color.BLUE⟩

/-- `neighborCubesIDs(i, cuts)`: the ids of the six face-neighbors of cube
`i`, in source order, filtered by occupancy and cuts. -/
def neighborCubesIDs (o : Occupancy) (i : Nat) (cuts : List (Nat × Nat)) :
    List Nat :=
  match o.ps[i]? with
  | none => []
  | some p =>
      (sixNbrs p).filterMap fun q =>
        match gridGet o.grid q with
        | some id =>
            if (o.ps[id]?).isSome ∧ ¬cutsContains cuts id i then some id
            else none
        | none => none

/-- `getOneNeighbor(cube, cuts)`, by id: first existing uncut neighbor in
source order (`+x, −x, +y, −y, +z, −z`); returns its id (the source
returns the `Cube`, which callers immediately turn back into its id). -/
def getOneNeighborId (o : Occupancy) (i : Nat) (cuts : List (Nat × Nat)) :
    Option Nat :=
  match o.ps[i]? with
  | none => none
  | some p =>
      ([(p.1 + 1, p.2.1, p.2.2), (p.1 - 1, p.2.1, p.2.2),
        (p.1, p.2.1 + 1, p.2.2), (p.1, p.2.1 - 1, p.2.2),
        (p.1, p.2.1, p.2.2 + 1), (p.1, p.2.1, p.2.2 - 1)] :
        List Position).findSome? fun q =>
          match gridGet o.grid q with
          | some nid =>
              if (o.ps[nid]?).isSome ∧ ¬cutsContains cuts i nid then some nid
              else none
          | none => none

/-- The mutable arrays of `findCubeStabilityRecursive`. -/
structure StabState where
  seen : List Bool
  parent : List (Option Nat)
  depth : List Int
  low : List Int
  stable : List Bool

/-- `findCubeStabilityRecursive`: articulation-point DFS.  The fuel bounds
the recursion depth; each nested call enters an unseen cube, so depth is
at most the number of cubes, which the top-level call passes. -/
def findCubeStabilityRec (o : Occupancy) (cuts : List (Nat × Nat)) :
    Nat → Nat → Int → StabState → StabState
  | 0, _, _, st => st
  | fuel + 1, i, d, st =>
      let st := { st with seen := st.seen.set i true,
                          depth := st.depth.set i d,
                          low := st.low.set i d }
      match o.ps[i]? with
      | none => st
      | some p =>
          let res := (sixNbrs p).foldl (fun (acc : StabState × Bool × Nat) q =>
            let (st, cutCube, childCount) := acc
            match gridGet o.grid q with
            | none => acc
            | some cid =>
                if ¬st.seen.getD cid false ∧ ¬cutsContains cuts cid i then
                  let st := { st with parent := st.parent.set cid (some i) }
                  let st := findCubeStabilityRec o cuts fuel cid (d + 1) st
                  let childCount := childCount + 1
                  let cutCube := if st.low.getD cid 0 ≥ st.depth.getD i 0 then
                    true else cutCube
                  let st := { st with
                    low := st.low.set i (min (st.low.getD i 0) (st.low.getD cid 0)) }
                  (st, cutCube, childCount)
                else if st.parent.getD i none ≠ some cid ∧
                    ¬cutsContains cuts cid i then
                  let st := { st with
                    low := st.low.set i (min (st.low.getD i 0) (st.depth.getD cid 0)) }
                  (st, cutCube, childCount)
                else acc) (st, false, 0)
          let (st, cutCube, childCount) := res
          if st.parent.getD i none = none then
            { st with stable := st.stable.set i (decide (childCount ≤ 1)) }
          else
            { st with stable := st.stable.set i (!cutCube) }

/-- `findCubeStability(cuts)`. -/
def findCubeStability (o : Occupancy) (cuts : List (Nat × Nat)) : List Bool :=
  if o.ps.length = 0 then []
  else
    let n := o.ps.length
    let st : StabState :=
      { seen := List.replicate n false, parent := List.replicate n none,
        depth := List.replicate n (-1), low := List.replicate n (-1),
        stable := List.replicate n true }
    (findCubeStabilityRec o cuts n 0 0 st).stable

/-- The ids pushed by the `capacity` BFS: six face-neighbor cells with a
non-null id (`c.CubeId !== null` — this one keeps id 0) not cut off. -/
def capPush (o : Occupancy) (cuts : List (Nat × Nat)) (cubeId : Nat)
    (p : Position) : List Nat :=
  (sixNbrs p).filterMap fun q =>
    match gridGet o.grid q with
    | some id => if ¬cutsContains cuts id cubeId then some id else none
    | none => none

/-- The BFS loop of `capacity`, with the same fuel bound as `connBFS`. -/
def capacityBFS (o : Occupancy) (cuts : List (Nat × Nat)) (bId : Nat) :
    Nat → List Bool → Nat → List Nat → Nat
  | 0, _, cubeCount, _ => cubeCount
  | _ + 1, _, cubeCount, [] => cubeCount
  | fuel + 1, seen, cubeCount, cubeId :: rest =>
      if seen.getD cubeId false then
        capacityBFS o cuts bId fuel seen cubeCount rest
      else
        match o.ps[cubeId]? with
        | none => capacityBFS o cuts bId fuel seen cubeCount rest
        | some p =>
            capacityBFS o cuts bId fuel (seen.set cubeId true)
              (if bId ≠ cubeId then cubeCount + 1 else cubeCount)
              (rest ++ capPush o cuts cubeId p)

/-- `capacity(s, root, cuts)`: the number of cubes not reached from
`root` when `s` is disregarded.  `s` and `root` are passed by index (the
source passes the `Cube` objects and immediately maps them back to ids
via the grid). -/
def capacity (o : Occupancy) (sIdx rootIdx : Nat)
    (cuts : List (Nat × Nat) := []) : Nat :=
  let n := o.ps.length
  let seen := (List.replicate n false).set sIdx true
  o.ps.length - capacityBFS o cuts sIdx (7 * n + 1) seen 1 [rootIdx]

/-- The mutable state of `findComponentsRecursive`.  The edge stack is
kept head-first (the head is the top); `edgeChunks` keeps the chunk under
construction last, as in the source. -/
structure CompState where
  discovery : List Int
  low : List Int
  parent : List Int
  edgeStack : List (Nat × Nat)
  edgeChunks : List (List (Nat × Nat))

/-- Append an edge to the chunk currently under construction
(`edgeChunks[edgeChunks.length - 1].push(e)`). -/
def pushLastChunk (chunks : List (List (Nat × Nat))) (e : Nat × Nat) :
    List (List (Nat × Nat)) :=
  List.modify (fun c => c ++ [e]) (chunks.length - 1) chunks

/-- Pop edges from the stack into the current chunk until (and including)
the edge `(u, v)`; then start a new chunk. -/
def popEdgesUntil (u v : Nat) :
    List (Nat × Nat) → List (List (Nat × Nat)) →
      List (Nat × Nat) × List (List (Nat × Nat))
  | [], chunks => ([], chunks)
  | e :: rest, chunks =>
      if e = (u, v) then (rest, pushLastChunk chunks e)
      else popEdgesUntil u v rest (pushLastChunk chunks e)

/-- `findComponentsRecursive`: the biconnected-components DFS.  Fuel
bounds the recursion depth (≤ number of cubes, passed by the caller). -/
def findComponentsRec (o : Occupancy) (cuts : List (Nat × Nat)) :
    Nat → Nat → Int → CompState → CompState
  | 0, _, _, st => st
  | fuel + 1, u, time, st =>
      let time := time + 1
      let st := { st with discovery := st.discovery.set u time,
                          low := st.low.set u time }
      let res := (neighborCubesIDs o u cuts).foldl
        (fun (acc : CompState × Nat) v =>
          let (st, children) := acc
          if st.discovery.getD v (-1) = -1 then
            let children := children + 1
            let st := { st with parent := st.parent.set v (Int.ofNat u) }
            let st := { st with edgeStack := (u, v) :: st.edgeStack }
            let st := findComponentsRec o cuts fuel v time st
            let st := if st.low.getD u (-1) > st.low.getD v (-1) then
              { st with low := st.low.set u (st.low.getD v (-1)) } else st
            let st := if (st.discovery.getD u (-1) = 1 ∧ children > 1) ∨
                (st.discovery.getD u (-1) > 1 ∧
                  st.low.getD v (-1) ≥ st.discovery.getD u (-1)) then
              let (stack', chunks') := popEdgesUntil u v st.edgeStack
                st.edgeChunks
              { st with edgeStack := stack', edgeChunks := chunks' ++ [[]] }
            else st
            (st, children)
          else if Int.ofNat v ≠ st.parent.getD u (-1) ∧
              st.discovery.getD v (-1) < st.discovery.getD u (-1) then
            let st := if st.low.getD u (-1) > st.discovery.getD v (-1) then
              { st with low := st.low.set u (st.discovery.getD v (-1)) }
            else st
            ({ st with edgeStack := (u, v) :: st.edgeStack }, children)
          else acc) (st, 0)
      res.1

/-- `findComponents(cuts)`: returns per-cube component kind (1 link,
2 chunk, 3 connector, −1 disconnected), chunk ids, and stability. -/
def findComponents (o : Occupancy) (cuts : List (Nat × Nat)) :
    List Int × List Int × List Bool :=
  let n := o.ps.length
  let components : List Int := List.replicate n (-1)
  let chunkIds : List Int := List.replicate n (-1)
  let stable := findCubeStability o cuts
  if n = 0 ∨ ¬o.isConnected cuts none then (components, chunkIds, stable)
  else
    let st : CompState :=
      { discovery := List.replicate n (-1), low := List.replicate n (-1),
        parent := List.replicate n (-1), edgeStack := [],
        edgeChunks := [[]] }
    let st := findComponentsRec o cuts n 0 0 st
    -- store the remaining stacked edges in the last component
    let chunks := st.edgeStack.foldl (fun chunks e => pushLastChunk chunks e)
      st.edgeChunks
    -- drop chunks with ≤ 1 edge
    let edgeChunksOfProperSize := chunks.filter (fun c => 1 < c.length)
    -- assign chunk ids and detect connectors
    let assigned := edgeChunksOfProperSize.enum.foldl
      (fun (acc : List Int × List Int) ic =>
        ic.2.foldl (fun (acc : List Int × List Int) edge =>
          [edge.1, edge.2].foldl (fun (acc : List Int × List Int) v =>
            let (components, chunkIds) := acc
            if chunkIds.getD v (-1) = -1 then
              (components.set v 2, chunkIds.set v (Int.ofNat ic.1))
            else if chunkIds.getD v (-1) ≠ Int.ofNat ic.1 then
              (components.set v 3, chunkIds)
            else acc) acc) acc)
      (components, chunkIds)
    -- all unassigned cubes are links
    let assigned := (List.range n).foldl (fun (acc : List Int × List Int) i =>
      if acc.1.getD i (-1) = -1 then (acc.1.set i 1, acc.2) else acc) assigned
    -- promote loose cubes into the chunk of their single neighbor
    let assigned := (List.range n).foldl (fun (acc : List Int × List Int) i =>
      let (components, chunkIds) := acc
      if components.getD i (-1) = 1 ∧
          (neighborCubesIDs o i cuts).length = 1 then
        match getOneNeighborId o i cuts with
        | some nid =>
            if components.getD nid (-1) = 2 then
              (components.set i 2, chunkIds.set i (chunkIds.getD nid (-1)))
            else acc
        | none => acc
      else acc) assigned
    -- cut cubes in a chunk that cut off something outside it are connectors
    let assigned := (List.range n).foldl (fun (acc : List Int × List Int) i =>
      let (components, chunkIds) := acc
      if components.getD i (-1) = 2 ∧ ¬stable.getD i true then
        let rootIndex := if i = 0 then 1 else 0
        let cap := capacity o i rootIndex cuts
        if cap ≠ 1 ∧ cap ≠ n - 2 then (components.set i 3, chunkIds)
        else acc
      else acc) assigned
    (assigned.1, assigned.2, stable)

/-- The per-cube assignment of the `markComponents` loop body, applied to
cube `i` with the `findComponents` result. -/
def applyMark (fc : List Int × List Int × List Bool) (i : Nat) (cube : Cube) :
    Cube :=
  let cube :=
    if fc.1.getD i (-1) = 2 then
      cube.setComponentStatus
        (if fc.2.2.getD i true then .CHUNK_STABLE else .CHUNK_CUT)
    else if fc.1.getD i (-1) = 1 then
      cube.setComponentStatus
        (if fc.2.2.getD i true then .LINK_STABLE else .LINK_CUT)
    else if fc.1.getD i (-1) = 3 then
      cube.setComponentStatus .CONNECTOR
    else
      cube.setComponentStatus .NONE
  cube.setChunkId (fc.2.1.getD i (-1))

/-- `markComponents(cuts)`: run `findComponents` and store the resulting
status and chunk id on every cube (`setComponentStatus` resets
`heavyChunk` to `false` via its default argument). -/
def markComponents (c : Configuration) (cuts : List (Nat × Nat) := []) :
    Configuration :=
  { c with cubes := c.cubes.mapIdx (applyMark (findComponents c.occ cuts)) }

theorem applyMark_p (fc : List Int × List Int × List Bool) (i : Nat)
    (cube : Cube) : (applyMark fc i cube).p = cube.p := by
  rw [applyMark]
  simp only [Cube.setChunkId, Cube.setComponentStatus]
  split
  · rfl
  · split
    · rfl
    · split <;> rfl

theorem applyMark_resetPosition (fc : List Int × List Int × List Bool)
    (i : Nat) (cube : Cube) :
    (applyMark fc i cube).resetPosition = cube.resetPosition := by
  rw [applyMark]
  simp only [Cube.setChunkId, Cube.setComponentStatus]
  split
  · rfl
  · split
    · rfl
    · split <;> rfl

theorem applyMark_color (fc : List Int × List Int × List Bool) (i : Nat)
    (cube : Cube) : (applyMark fc i cube).color = cube.color := by
  rw [applyMark]
  simp only [Cube.setChunkId, Cube.setComponentStatus]
  split
  · rfl
  · split
    · rfl
    · split <;> rfl

theorem applyMark_status_chunk (fc : List Int × List Int × List Bool)
    (i : Nat) (cube cube' : Cube) :
    (applyMark fc i cube).componentStatus =
        (applyMark fc i cube').componentStatus ∧
      (applyMark fc i cube).chunkId = (applyMark fc i cube').chunkId := by
  rw [applyMark, applyMark]
  simp only [Cube.setChunkId, Cube.setComponentStatus]
  constructor
  · split
    · rfl
    · split
      · rfl
      · split <;> rfl
  · trivial

theorem markComponents_grid (c : Configuration) (cuts : List (Nat × Nat)) :
    (markComponents c cuts).grid = c.grid := rfl

theorem markComponents_length (c : Configuration) (cuts : List (Nat × Nat)) :
    (markComponents c cuts).cubes.length = c.cubes.length :=
  List.length_mapIdx

theorem markComponents_ps (c : Configuration) (cuts : List (Nat × Nat)) :
    (markComponents c cuts).cubes.map (·.p) = c.cubes.map (·.p) := by
  refine List.ext_getElem (by simp [markComponents_length]) ?_
  intro i h1 h2
  simp only [List.getElem_map]
  simp only [markComponents]
  rw [List.getElem_mapIdx]
  exact applyMark_p _ _ _

theorem markComponents_occ (c : Configuration) (cuts : List (Nat × Nat)) :
    (markComponents c cuts).occ = c.occ := by
  rw [Configuration.occ, Configuration.occ, markComponents_grid,
    markComponents_ps]

theorem wf_markComponents {c : Configuration} (h : wf c = true)
    (cuts : List (Nat × Nat)) : wf (markComponents c cuts) = true := by
  apply wf_intro
  · intro i hi
    have hi' : i < c.cubes.length := by
      rwa [markComponents_length] at hi
    have hp : (markComponents c cuts).cubes[i].p = c.cubes[i].p := by
      simp only [markComponents]
      rw [List.getElem_mapIdx]
      exact applyMark_p _ _ _
    rw [markComponents_grid, hp]
    exact wf_idx h hi'
  · intro p id hg
    rw [markComponents_grid] at hg
    obtain ⟨hlt, hpe⟩ := wf_lookup h hg
    have hlen' : id < (markComponents c cuts).cubes.length := by
      rwa [markComponents_length]
    refine ⟨hlen', ?_⟩
    have hp : (markComponents c cuts).cubes[id].p = c.cubes[id].p := by
      simp only [markComponents]
      rw [List.getElem_mapIdx]
      exact applyMark_p _ _ _
    rw [hp]
    exact hpe

/-- `addCube`: insert and re-mark. -/
def addCube (c : Configuration) (cube : Cube) : Except String Configuration :=
  (addCubeUnmarked c cube).map (fun c' => markComponents c')

/-- `moveCube`: move and re-mark. -/
def moveCube (c : Configuration) (cube : Cube) (to' : Position) :
    Except String Configuration :=
  (moveCubeUnmarked c cube to').map (fun c' => markComponents c')

/-- `removeCube`: remove and re-mark. -/
def removeCube (c : Configuration) (cube : Cube) : Configuration :=
  markComponents (removeCubeUnmarked c cube)

/-- C10.  Every mutation through `addCube`, `moveCube`, `removeCube`
and their unmarked variants preserves the index invariant `wf`: every
array index is stored in the grid cell of its cube's position, and every
non-null grid cell points back to the cube at that position. -/
theorem mutations_preserve_index_invariant :
    (∀ c cube c', wf c = true → addCubeUnmarked c cube = .ok c' →
      wf c' = true) ∧
    (∀ c cube to' c', wf c = true → moveCubeUnmarked c cube to' = .ok c' →
      wf c' = true) ∧
    (∀ c cube, wf c = true → wf (removeCubeUnmarked c cube) = true) ∧
    (∀ c cube c', wf c = true → addCube c cube = .ok c' → wf c' = true) ∧
    (∀ c cube to' c', wf c = true → moveCube c cube to' = .ok c' →
      wf c' = true) ∧
    (∀ c cube, wf c = true → wf (removeCube c cube) = true) := by
  refine ⟨fun c cube c' h ha => wf_addCubeUnmarked h ha,
    fun c cube to' c' h hm => wf_moveCubeUnmarked h hm,
    fun c cube h => wf_removeCubeUnmarked h,
    ?_, ?_, fun c cube h => wf_markComponents (wf_removeCubeUnmarked h) _⟩
  · intro c cube c' h ha
    rw [addCube] at ha
    rcases hx : addCubeUnmarked c cube with e | c₁
    · rw [hx] at ha; exact Except.noConfusion ha
    · rw [hx] at ha
      simp only [Except.map] at ha
      injection ha with ha
      subst ha
      exact wf_markComponents (wf_addCubeUnmarked h hx) _
  · intro c cube to' c' h hm
    rw [moveCube] at hm
    rcases hx : moveCubeUnmarked c cube to' with e | c₁
    · rw [hx] at hm; exact Except.noConfusion hm
    · rw [hx] at hm
      simp only [Except.map] at hm
      injection hm with hm
      subst hm
      exact wf_markComponents (wf_moveCubeUnmarked h hx) _

/-- A two-cube example configuration: cubes at (0,0,0) and (1,0,0). -/
def cfg2 : Configuration :=
  { cubes := [Cube.mk' (0, 0, 0) Color.BLUE, Cube.mk' (1, 0, 0) Color.BLUE],
    grid := [((0, 0, 0), some 0), ((1, 0, 0), some 1)] }

/-- The result of inserting a cube at (0,1,0) into `cfg2`. -/
def cfg2add : Configuration :=
  { cubes := [Cube.mk' (0, 0, 0) Color.BLUE, Cube.mk' (1, 0, 0) Color.BLUE,
      Cube.mk' (0, 1, 0) Color.BLUE],
    grid := [((0, 1, 0), some 2), ((0, 0, 0), some 0), ((1, 0, 0), some 1)] }

/-- Witness for C10 on a concrete configuration. -/
theorem mutations_preserve_index_invariant_witness :
    wf cfg2 = true ∧
    wf (removeCubeUnmarked cfg2 (Cube.mk' (1, 0, 0) Color.BLUE)) = true ∧
    addCubeUnmarked cfg2 (Cube.mk' (0, 1, 0) Color.BLUE) = .ok cfg2add ∧
    wf cfg2add = true :=
  ⟨by decide,
   mutations_preserve_index_invariant.2.2.1 cfg2 (Cube.mk' (1, 0, 0) Color.BLUE)
     (by decide),
   by decide,
   mutations_preserve_index_invariant.1 cfg2 (Cube.mk' (0, 1, 0) Color.BLUE)
     cfg2add (by decide) (by decide)⟩

/-! ## Bounds, monotonicity, and the Gather limit -/

/-- `min` of a nonempty integer list (`Array.min()` in the source; the
source extension is undefined on an empty configuration, and every
theorem about bounds assumes nonemptiness). -/
def minList : List Int → Int
  | [] => 0
  | a :: t => t.foldl min a

/-- `max` of a nonempty integer list. -/
def maxList : List Int → Int
  | [] => 0
  | a :: t => t.foldl max a

/-- `bounds()`: `[minX, minY, minZ, maxX, maxY, maxZ]`. -/
structure Bounds where
  minX : Int
  minY : Int
  minZ : Int
  maxX : Int
  maxY : Int
  maxZ : Int
deriving DecidableEq, Repr

/-- `Configuration.bounds()`. -/
def Configuration.bounds (c : Configuration) : Bounds :=
  { minX := minList (c.cubes.map (·.p.1)),
    minY := minList (c.cubes.map (·.p.2.1)),
    minZ := minList (c.cubes.map (·.p.2.2)),
    maxX := maxList (c.cubes.map (·.p.1)),
    maxY := maxList (c.cubes.map (·.p.2.1)),
    maxZ := maxList (c.cubes.map (·.p.2.2)) }

/-- `boundingBoxSpan()`: "the amount of cubes necessary to span the
complete bounding box twice" — `2 * (width + depth + height)`. -/
def boundingBoxSpan (c : Configuration) : Int :=
  let bounds := c.bounds
  let width := bounds.maxX - bounds.minX + 1
  let depth := bounds.maxY - bounds.minY + 1
  let height := bounds.maxZ - bounds.minZ + 1
  2 * (width + depth + height)

/-- `boundingBoxContains(p)`. -/
def boundingBoxContains (c : Configuration) (p : Position) : Bool :=
  decide (c.bounds.minX ≤ p.1) && decide (p.1 ≤ c.bounds.maxX) &&
  decide (c.bounds.minY ≤ p.2.1) && decide (p.2.1 ≤ c.bounds.maxY) &&
  decide (c.bounds.minZ ≤ p.2.2) && decide (p.2.2 ≤ c.bounds.maxZ)

/-- `isXYZMonotone()`. -/
def isXYZMonotone (c : Configuration) : Bool :=
  let bounds := c.bounds
  c.cubes.all fun cube =>
    (decide (cube.p.1 = bounds.minX) ||
      c.hasCube (cube.p.1 - 1, cube.p.2.1, cube.p.2.2)) &&
    (decide (cube.p.2.1 = bounds.minY) ||
      c.hasCube (cube.p.1, cube.p.2.1 - 1, cube.p.2.2)) &&
    (decide (cube.p.2.2 = bounds.minZ) ||
      c.hasCube (cube.p.1, cube.p.2.1, cube.p.2.2 - 1))

/-- The `limit` bound computed at the top of `GatherAlgorithm.execute`
(`const limit = this.configuration.boundingBoxSpan()`), computed once,
before the gathering loop. -/
def gatherExecuteLimit (c : Configuration) : Int :=
  boundingBoxSpan c

theorem foldl_min_le_init (t : List Int) : ∀ a : Int, t.foldl min a ≤ a := by
  induction t with
  | nil => intro a; exact le_refl a
  | cons b t ih =>
    intro a
    rw [List.foldl_cons]
    exact le_trans (ih (min a b)) (min_le_left a b)

theorem init_le_foldl_max (t : List Int) : ∀ a : Int, a ≤ t.foldl max a := by
  induction t with
  | nil => intro a; exact le_refl a
  | cons b t ih =>
    intro a
    rw [List.foldl_cons]
    exact le_trans (le_max_left a b) (ih (max a b))

theorem minList_le_maxList {l : List Int} (h : l ≠ []) :
    minList l ≤ maxList l := by
  match l with
  | [] => exact absurd rfl h
  | a :: t =>
      exact le_trans (foldl_min_le_init t a) (init_le_foldl_max t a)

/-- C6, counterexample: on the single-cube configuration the limit
actually used by `GatherAlgorithm.execute` is `boundingBoxSpan()` = 6,
not `2 × boundingBoxSpan()` = 12. -/
theorem gather_limit_counterexample :
    gatherExecuteLimit
        { cubes := [Cube.mk' (0, 0, 0) Color.BLUE],
          grid := [((0, 0, 0), some 0)] } ≠
      2 * boundingBoxSpan
        { cubes := [Cube.mk' (0, 0, 0) Color.BLUE],
          grid := [((0, 0, 0), some 0)] } := by
  decide

/-- C6, amended.  The termination bound `limit` computed by
`GatherAlgorithm.execute` (once, before the loop) is `boundingBoxSpan()`
itself; since `boundingBoxSpan()` already contains the doubling factor
(it returns `2·(width+depth+height)`), on any nonempty configuration the
limit is strictly below `2 × boundingBoxSpan()`. -/
theorem gather_limit_is_span (c : Configuration) (h : c.cubes ≠ []) :
    gatherExecuteLimit c = boundingBoxSpan c ∧
      gatherExecuteLimit c < 2 * boundingBoxSpan c := by
  refine ⟨rfl, ?_⟩
  have hne : c.cubes.map (·.p.1) ≠ [] := by
    intro hx
    exact h (List.map_eq_nil_iff.mp hx)
  have hne2 : c.cubes.map (·.p.2.1) ≠ [] := by
    intro hx
    exact h (List.map_eq_nil_iff.mp hx)
  have hne3 : c.cubes.map (·.p.2.2) ≠ [] := by
    intro hx
    exact h (List.map_eq_nil_iff.mp hx)
  have h1 := minList_le_maxList hne
  have h2 := minList_le_maxList hne2
  have h3 := minList_le_maxList hne3
  rw [gatherExecuteLimit, boundingBoxSpan]
  simp only [Configuration.bounds]
  omega

/-- Witness for C6's amended theorem at a concrete configuration. -/
theorem gather_limit_is_span_witness :
    cfg2.cubes ≠ [] ∧
      (gatherExecuteLimit cfg2 = boundingBoxSpan cfg2 ∧
        gatherExecuteLimit cfg2 < 2 * boundingBoxSpan cfg2) :=
  ⟨by decide, gather_limit_is_span cfg2 (by decide)⟩

theorem markComponents_cubes_getElem (c : Configuration)
    (cuts : List (Nat × Nat)) {i : Nat}
    (h1 : i < (markComponents c cuts).cubes.length) (h2 : i < c.cubes.length) :
    (markComponents c cuts).cubes[i] =
      applyMark (findComponents c.occ cuts) i c.cubes[i] := by
  simp only [markComponents]
  rw [List.getElem_mapIdx]

/-- C8.  On a connected configuration, running `markComponents` twice in
a row without any mutation assigns every cube the same `componentStatus`
and the same `chunkId` as a single run: the decomposition depends only on
the occupancy, which `markComponents` does not change. -/
theorem markComponents_no_op_stable (c : Configuration)
    (hconn : c.isConnected [] none = true) :
    (markComponents (markComponents c []) []).cubes.map
        (fun b => (b.componentStatus, b.chunkId)) =
      (markComponents c []).cubes.map
        (fun b => (b.componentStatus, b.chunkId)) := by
  refine List.ext_getElem (by simp [markComponents_length]) ?_
  intro i h1 h2
  rw [List.length_map, markComponents_length, markComponents_length] at h1
  rw [List.length_map, markComponents_length] at h2
  simp only [List.getElem_map]
  rw [markComponents_cubes_getElem _ _ (by simp [markComponents_length]; omega)
    (by rw [markComponents_length]; omega)]
  rw [markComponents_cubes_getElem _ _ (by simp [markComponents_length]; omega)
    (by omega)]
  rw [markComponents_occ]
  have h := applyMark_status_chunk (findComponents c.occ []) i
    (applyMark (findComponents c.occ []) i c.cubes[i]) c.cubes[i]
  rw [Prod.mk.injEq]
  exact ⟨h.1, h.2⟩

/-- Witness for C8 on the connected two-cube configuration. -/
theorem markComponents_no_op_stable_witness :
    Configuration.isConnected cfg2 [] none = true ∧
    (markComponents (markComponents cfg2 []) []).cubes.map
        (fun b => (b.componentStatus, b.chunkId)) =
      (markComponents cfg2 []).cubes.map
        (fun b => (b.componentStatus, b.chunkId)) :=
  ⟨by decide, markComponents_no_op_stable cfg2 (by decide)⟩

/-! ## `validMovesFrom`, `isValid`, `execute`, and `shortestMovePath` -/

/-- `validMovesFrom(p)`: empty when removing the cube at `p` would
disconnect the configuration; otherwise all direction strings whose move
is valid ignoring connectivity. -/
def validMovesFrom (o : Occupancy) (p : Position) : List Move :=
  if ¬o.isConnected [] (some p) then []
  else
    (moveDirections.filter fun d => isValidIgnoreConnectivity o p d).map
      fun d => { position := p, direction := d }

/-- `Move.isValid()`: geometric validity plus connectivity with the
source cube skipped. -/
def Move.isValid (m : Move) (o : Occupancy) : Bool :=
  isValidIgnoreConnectivity o m.position m.direction &&
    o.isConnected [] (some m.position)

/-- `Move.execute()`: look up the cube at the source and `moveCube` it. -/
def executeMove (c : Configuration) (m : Move) : Except String Configuration :=
  match c.getCube m.position with
  | none => .error "Tried to move non-existing Cube"
  | some cube => moveCube c cube m.target

/-- `seen[x + "," + y + "," + z]` of the move-graph BFS. -/
def seenLookup (seen : List (Position × Option Move)) (p : Position) :
    Option (Position × Option Move) :=
  seen.find? fun e => decide (e.1 = p)

/-- The BFS over the move graph inside `shortestMovePath`, with the early
break when the target is dequeued.  Fuel bounds iterations: at most 30
moves are pushed per marking and the markable positions are the source
plus cells face-adjacent to a cube, so the caller's bound
`31·(6n+1) + 1` dominates the iteration count. -/
def bfsMove (o : Occupancy) (to' : Position) :
    Nat → List (Position × Option Move) → List (Position × Option Move) →
      List (Position × Option Move)
  | 0, seen, _ => seen
  | _ + 1, seen, [] => seen
  | fuel + 1, seen, (p, m) :: rest =>
      if (seenLookup seen p).isSome then bfsMove o to' fuel seen rest
      else
        let seen := (p, m) :: seen
        if p = to' then seen
        else
          bfsMove o to' fuel seen
            (rest ++ (validMovesFrom o p).map fun mv => (mv.target, some mv))

/-- The path-reconstruction loop of `shortestMovePath`.  It follows the
BFS parent pointers back to the source; the fuel (one more than the size
of the seen map) bounds its iterations, and the fallthrough case is the
`move!` null-dereference the source would fault on, which BFS output
never produces. -/
def reconstructPath (seen : List (Position × Option Move)) (from' : Position) :
    Nat → Position → List Move → List Move
  | 0, _, path => path
  | fuel + 1, c, path =>
      if c = from' then path
      else
        match seenLookup seen c with
        | some (_, some move) =>
            reconstructPath seen from' fuel move.sourcePosition (move :: path)
        | _ => path

/-- `Configuration.shortestMovePath(from, to)`: temporarily remove the
origin cube, BFS over the move graph, reinsert the cube, and return the
path (empty when the target was not reached). -/
def shortestMovePath (c : Configuration) (from' to' : Position) :
    Except String (List Move × Configuration) :=
  match c.getCube from' with
  | none => .error "Cannot compute move path from non-existing Cube"
  | some cube =>
      let c₁ := removeCubeUnmarked c cube
      let seen := bfsMove c₁.occ to'
        (31 * (6 * c₁.cubes.length + 1) + 1) [] [(from', none)]
      if (seenLookup seen to').isNone then
        (addCube c₁ cube).map fun c₂ => ([], c₂)
      else
        let path := reconstructPath seen from' (seen.length + 1) to' []
        (addCube c₁ cube).map fun c₂ => (path, c₂)

/-- One edge of the move graph: a valid move of the free cube from `p`
reaches `q`. -/
def moveStep (o : Occupancy) (p q : Position) : Prop :=
  q ∈ (validMovesFrom o p).map (·.target)

/-- Soundness of the move-graph BFS: every recorded position satisfies
any property that holds on the initial seen set and queue and is closed
under move edges. -/
theorem bfsMove_sound (o : Occupancy) (to' : Position) (R : Position → Prop)
    (fuel : Nat) :
    ∀ seen queue,
      (∀ e ∈ seen, R e.1) →
      (∀ e ∈ queue, R e.1) →
      (∀ p q, R p → moveStep o p q → R q) →
      ∀ e ∈ bfsMove o to' fuel seen queue, R e.1 := by
  induction fuel with
  | zero => intro seen queue hseen _ _ e he; exact hseen e he
  | succ n ih =>
    intro seen queue hseen hqueue hclosed e he
    match queue with
    | [] => exact hseen e he
    | (p, m) :: rest =>
      rw [bfsMove] at he
      by_cases hs : (seenLookup seen p).isSome
      · rw [if_pos hs] at he
        exact ih _ _ hseen (fun e' he' => hqueue e' (List.mem_cons_of_mem _ he'))
          hclosed e he
      · rw [if_neg hs] at he
        have hseen' : ∀ e' ∈ (p, m) :: seen, R e'.1 := by
          intro e' he'
          rcases List.mem_cons.mp he' with rfl | hmem
          · exact hqueue (p, m) (List.mem_cons_self _ _)
          · exact hseen e' hmem
        by_cases hp : p = to'
        · rw [if_pos hp] at he
          exact hseen' e he
        · rw [if_neg hp] at he
          refine ih _ _ hseen' ?_ hclosed e he
          intro e' he'
          rcases List.mem_append.mp he' with hmem | hmem
          · exact hqueue e' (List.mem_cons_of_mem _ hmem)
          · rw [List.mem_map] at hmem
            obtain ⟨mv, hmv, rfl⟩ := hmem
            refine hclosed p mv.target (hqueue (p, m) (List.mem_cons_self _ _))
              ?_
            rw [moveStep, List.mem_map]
            exact ⟨mv, hmv, rfl⟩

theorem perm_eraseIdx_append {α : Type} (l : List α) (k : Nat)
    (hk : k < l.length) : (l.eraseIdx k ++ [l[k]]).Perm l := by
  rw [List.eraseIdx_eq_take_drop_succ]
  have hdecomp : l = l.take k ++ l[k] :: l.drop (k + 1) := by
    rw [List.getElem_cons_drop l k hk, List.take_append_drop]
  rw [List.append_assoc]
  refine (List.Perm.append_left _ List.perm_append_comm).trans ?_
  rw [List.singleton_append, ← hdecomp]

/-- Removing the cube at an occupied position and re-adding it yields a
configuration whose occupied positions are a permutation of the original
ones. -/
theorem remove_then_add {c : Configuration} (hwf : wf c = true)
    {p : Position} {cube : Cube} (hc : c.getCube p = some cube) :
    ∃ c₂, addCube (removeCubeUnmarked c cube) cube = .ok c₂ ∧
      (c₂.cubes.map (·.p)).Perm (c.cubes.map (·.p)) := by
  rw [Configuration.getCube] at hc
  rcases hg : gridGet c.grid p with _ | k
  · rw [hg] at hc; exact Option.noConfusion hc
  · rw [hg] at hc
    obtain ⟨hk, hkp⟩ := wf_lookup hwf hg
    have hc2 : c.cubes[k]? = some cube := hc
    rw [List.getElem?_eq_getElem hk] at hc2
    injection hc2 with hc
    have hcp : cube.p = p := by rw [← hc, hkp]
    have hgk : gridGet c.grid cube.p = some k := by rw [hcp]; exact hg
    have hcubes₁ : (removeCubeUnmarked c cube).cubes = c.cubes.eraseIdx k := by
      simp only [removeCubeUnmarked, hgk]
    have hnm : ∀ b ∈ c.cubes.eraseIdx k, b.p ≠ p := by
      intro b hb heq
      obtain ⟨j, hj, hbj⟩ := List.getElem_of_mem hb
      rcases Nat.lt_or_ge j k with hjk | hjk
      · rw [List.getElem_eraseIdx_of_lt _ _ _ hj hjk] at hbj
        have : j = k := wf_pos_inj hwf (by omega) hk (by rw [hbj, heq, hkp])
        omega
      · rw [List.getElem_eraseIdx_of_ge _ _ _ hj hjk] at hbj
        have hlt : j + 1 < c.cubes.length := by
          have := List.length_eraseIdx_of_lt hk
          omega
        have : j + 1 = k := wf_pos_inj hwf hlt hk (by rw [hbj, heq, hkp])
        omega
    have hgrid₁ : gridGet (removeCubeUnmarked c cube).grid p = none := by
      simp only [removeCubeUnmarked, hgk]
      rw [gridGet_reindexGrid_notmem _ _ hnm]
      rw [gridGet_gridSet, if_pos hcp.symm]
    have hhas : (removeCubeUnmarked c cube).hasCube cube.p = false := by
      rw [Configuration.hasCube, Configuration.getCube, hcp, hgrid₁]
      rfl
    have hadd : addCubeUnmarked (removeCubeUnmarked c cube) cube =
        .ok { cubes := (removeCubeUnmarked c cube).cubes ++ [cube],
              grid := gridSet (removeCubeUnmarked c cube).grid cube.p
                (some (removeCubeUnmarked c cube).cubes.length) } := by
      rw [addCubeUnmarked, hhas]
      rfl
    refine ⟨markComponents
      { cubes := (removeCubeUnmarked c cube).cubes ++ [cube],
        grid := gridSet (removeCubeUnmarked c cube).grid cube.p
          (some (removeCubeUnmarked c cube).cubes.length) }, ?_, ?_⟩
    · rw [addCube, hadd]
      rfl
    · rw [markComponents_ps]
      simp only [hcubes₁]
      rw [List.map_append]
      have hperm := (perm_eraseIdx_append c.cubes k hk).map (·.p)
      rw [List.map_append] at hperm
      simpa [hc] using hperm

/-- C3.  For an occupied source, `shortestMovePath` always returns
normally (never leaves the configuration mutated), and the occupied
positions after the call are a permutation of those before it: the
temporarily removed origin cube is restored on every exit path. -/
theorem shortestMovePath_preserves_occupancy (c : Configuration)
    (hwf : wf c = true) (from' to' : Position) (cube : Cube)
    (hc : c.getCube from' = some cube) :
    ∃ path c', shortestMovePath c from' to' = .ok (path, c') ∧
      (c'.cubes.map (·.p)).Perm (c.cubes.map (·.p)) := by
  obtain ⟨c₂, hadd, hperm⟩ := remove_then_add hwf hc
  simp only [shortestMovePath, hc]
  split
  · rw [hadd]
    exact ⟨[], c₂, rfl, hperm⟩
  · rw [hadd]
    exact ⟨_, c₂, rfl, hperm⟩

/-- Witness for C3 at a concrete configuration and an unreachable
target. -/
theorem shortestMovePath_preserves_occupancy_witness :
    wf cfg2 = true ∧
    cfg2.getCube (0, 0, 0) = some (Cube.mk' (0, 0, 0) Color.BLUE) ∧
    ∃ path c', shortestMovePath cfg2 (0, 0, 0) (5, 5, 5) = .ok (path, c') ∧
      (c'.cubes.map (·.p)).Perm (cfg2.cubes.map (·.p)) :=
  ⟨by decide, by decide,
   shortestMovePath_preserves_occupancy cfg2 (by decide) (0, 0, 0) (5, 5, 5)
     (Cube.mk' (0, 0, 0) Color.BLUE) (by decide)⟩

/-- C2.  When no sequence of legal moves (edges of the move graph of the
configuration with the origin cube removed) reaches the target,
`shortestMovePath` returns the empty list rather than throwing. -/
theorem shortestMovePath_unreachable_returns_nil (c : Configuration)
    (hwf : wf c = true) (from' to' : Position) (cube : Cube)
    (hc : c.getCube from' = some cube)
    (hnr : ¬ Relation.ReflTransGen
      (moveStep (removeCubeUnmarked c cube).occ) from' to') :
    ∃ c', shortestMovePath c from' to' = .ok ([], c') := by
  obtain ⟨c₂, hadd, _⟩ := remove_then_add hwf hc
  simp only [shortestMovePath, hc]
  have hnone : (seenLookup (bfsMove (removeCubeUnmarked c cube).occ to'
      (31 * (6 * (removeCubeUnmarked c cube).cubes.length + 1) + 1) []
      [(from', none)]) to').isNone := by
    rw [Option.isNone_iff_eq_none]
    by_contra hne
    obtain ⟨e, he⟩ := Option.ne_none_iff_exists'.mp hne
    rw [seenLookup] at he
    have hmem := List.mem_of_find?_eq_some he
    have hkey : e.1 = to' := by simpa using List.find?_some he
    have hr := bfsMove_sound (removeCubeUnmarked c cube).occ to'
      (Relation.ReflTransGen (moveStep (removeCubeUnmarked c cube).occ) from')
      (31 * (6 * (removeCubeUnmarked c cube).cubes.length + 1) + 1) []
      [(from', none)]
      (by intro e' he'; cases he')
      (by
        intro e' he'
        rcases List.mem_singleton.mp he' with rfl
        exact Relation.ReflTransGen.refl)
      (fun p q hp hs => hp.tail hs) e hmem
    rw [hkey] at hr
    exact hnr hr
  rw [if_pos hnone, hadd]
  exact ⟨c₂, rfl⟩

/-- Two cubes too far apart to support each other's moves. -/
def cfgFar : Configuration :=
  { cubes := [Cube.mk' (0, 0, 0) Color.BLUE, Cube.mk' (10, 0, 0) Color.BLUE],
    grid := [((0, 0, 0), some 0), ((10, 0, 0), some 1)] }

/-- Witness for C2: with the origin cube removed, the lone remaining cube
offers no valid move from the origin, so the target is unreachable and
the call returns the empty path. -/
theorem shortestMovePath_unreachable_returns_nil_witness :
    wf cfgFar = true ∧
    cfgFar.getCube (0, 0, 0) = some (Cube.mk' (0, 0, 0) Color.BLUE) ∧
    (¬ Relation.ReflTransGen
      (moveStep (removeCubeUnmarked cfgFar (Cube.mk' (0, 0, 0) Color.BLUE)).occ)
      (0, 0, 0) (3, 0, 0)) ∧
    ∃ c', shortestMovePath cfgFar (0, 0, 0) (3, 0, 0) = .ok ([], c') := by
  have hnr : ¬ Relation.ReflTransGen
      (moveStep (removeCubeUnmarked cfgFar (Cube.mk' (0, 0, 0) Color.BLUE)).occ)
      (0, 0, 0) (3, 0, 0) := by
    intro h
    rcases Relation.ReflTransGen.cases_head h with heq | ⟨q, hstep, _⟩
    · exact absurd heq (by decide)
    · rw [moveStep] at hstep
      rw [show validMovesFrom
          (removeCubeUnmarked cfgFar (Cube.mk' (0, 0, 0) Color.BLUE)).occ
          (0, 0, 0) = [] from by decide] at hstep
      cases hstep
  exact ⟨by decide, by decide, hnr,
    shortestMovePath_unreachable_returns_nil cfgFar (by decide) (0, 0, 0)
      (3, 0, 0) (Cube.mk' (0, 0, 0) Color.BLUE) (by decide) hnr⟩

/-! ## C1: moves returned by `validMovesFrom` preserve connectivity -/

theorem sixNbrs_symm {p q : Position} (h : q ∈ sixNbrs p) : p ∈ sixNbrs q := by
  obtain ⟨x, y, z⟩ := p
  obtain ⟨a, b, d⟩ := q
  simp only [sixNbrs, List.mem_cons, List.not_mem_nil, or_false,
    Prod.mk.injEq] at h ⊢
  rcases h with ⟨h1, h2, h3⟩ | ⟨h1, h2, h3⟩ | ⟨h1, h2, h3⟩ | ⟨h1, h2, h3⟩ |
    ⟨h1, h2, h3⟩ | ⟨h1, h2, h3⟩ <;> subst h1 <;> subst h2 <;> subst h3 <;>
    simp <;> omega

theorem stepLetter_comm (p : Position) (a b : Letter) :
    stepLetter (stepLetter p a) b = stepLetter (stepLetter p b) a := by
  obtain ⟨x, y, z⟩ := p
  cases a <;> cases b <;> simp [stepLetter, Prod.ext_iff] <;> omega

theorem stepLetter_mem_sixNbrs (p : Position) (a : Letter) :
    stepLetter p a ∈ sixNbrs p := by
  cases a <;> simp [stepLetter, sixNbrs]

theorem mem_sixNbrs_stepLetter (p : Position) (a : Letter) :
    p ∈ sixNbrs (stepLetter p a) :=
  sixNbrs_symm (stepLetter_mem_sixNbrs p a)

theorem stepLetter_ne (p : Position) (a : Letter) : stepLetter p a ≠ p := by
  obtain ⟨x, y, z⟩ := p
  cases a <;> simp [stepLetter, Prod.ext_iff] <;> omega

theorem slidePattern_support {o : Occupancy} {p : Position} {a : Letter}
    (h : slidePattern o p a = true) :
    ∃ q, q ∈ sixNbrs (stepLetter p a) ∧ o.hasCube q = true ∧ q ≠ p := by
  cases a <;>
  · simp only [slidePattern, Bool.or_eq_true, Bool.and_eq_true,
      Occupancy.hasNbr, Occupancy.hasNbr2] at h
    obtain ⟨x, y, z⟩ := p
    rcases h with ((⟨h1, h2⟩ | ⟨h1, h2⟩) | ⟨h1, h2⟩) | ⟨h1, h2⟩ <;>
    · refine ⟨_, ?_, h2, ?_⟩
      · first
        | exact stepLetter_mem_sixNbrs _ _
        | (rw [stepLetter_comm]; exact stepLetter_mem_sixNbrs _ _)
      · simp [stepLetter, Prod.ext_iff] <;> omega

/-- Every valid (ignoring connectivity) move has an empty target cell and
a supporting cube face-adjacent to the target and distinct from the
source cell: the slide patterns contain a diagonal support and the corner
patterns contain the pivot cube. -/
theorem valid_support {o : Occupancy} {p : Position} {d : Direction}
    (h : isValidIgnoreConnectivity o p d = true) :
    o.hasCube (targetPosition p d) = false ∧
      ∃ q, q ∈ sixNbrs (targetPosition p d) ∧ o.hasCube q = true ∧ q ≠ p := by
  rw [isValidIgnoreConnectivity.eq_def] at h
  split at h
  · exact absurd h (by simp)
  · next htgt =>
    have htgt' : o.hasCube (targetPosition p d) = false := by
      rw [Occupancy.hasCube]
      exact Bool.not_eq_true _ ▸ (by simpa using htgt)
    refine ⟨htgt', ?_⟩
    cases d with
    | corner a b =>
        simp only [Bool.and_eq_true, Bool.not_eq_true'] at h
        refine ⟨stepLetter p b, ?_, h.2, stepLetter_ne p b⟩
        show stepLetter p b ∈ sixNbrs (stepLetter (stepLetter p a) b)
        rw [stepLetter_comm]
        exact mem_sixNbrs_stepLetter _ a
    | slide a =>
        exact slidePattern_support h

theorem wf_occ_length {c : Configuration} :
    c.occ.ps.length = c.cubes.length := by
  rw [Configuration.occ]
  exact List.length_map _ _

theorem wf_occ_ps {c : Configuration} {i : Nat} (hi : i < c.cubes.length) :
    c.occ.ps[i]? = some c.cubes[i].p := by
  rw [Configuration.occ]
  simp [List.getElem?_eq_getElem, hi]

theorem wf_occ_gb {c : Configuration} (h : wf c = true) :
    ∀ q id, gridGet c.occ.grid q = some id → id < c.occ.ps.length := by
  intro q id hg
  obtain ⟨hlt, _⟩ := wf_lookup h hg
  rw [wf_occ_length]
  exact hlt

/-- Push edges of the BFS with no cuts, characterized positionally under
the index invariant. -/
theorem pushStep_iff {c : Configuration} (h : wf c = true) (i j : Nat) :
    pushStep c.occ [] i j ↔
      ∃ hi : i < c.cubes.length, ∃ hj : j < c.cubes.length,
        c.cubes[j].p ∈ sixNbrs (c.cubes[i].p) ∧ j ≠ 0 := by
  constructor
  · rintro ⟨p, hp, hpush⟩
    obtain ⟨q, hq, hg, hj0, _⟩ := mem_connPush.mp hpush
    obtain ⟨hjlt, hjp⟩ := wf_lookup h hg
    have hilt : i < c.cubes.length := by
      have := (List.getElem?_eq_some_iff.mp (by
        rw [Configuration.occ] at hp
        exact hp)).choose
      simpa using this
    refine ⟨hilt, hjlt, ?_, hj0⟩
    rw [wf_occ_ps hilt] at hp
    injection hp with hp
    rw [hjp, hp]
    exact hq
  · rintro ⟨hi, hj, hadj, hj0⟩
    refine ⟨c.cubes[i].p, wf_occ_ps hi, ?_⟩
    rw [mem_connPush]
    refine ⟨c.cubes[j].p, hadj, wf_idx h hj, hj0, ?_⟩
    simp [cutsContains]

/-- A reachability path that avoids vertex `k` (every edge source differs
from `k`) transfers to any relation agreeing with the original away from
`k`; the produced path records that both endpoints of every edge avoid
`k`. -/
theorem rtg_avoid_transfer {r s : Nat → Nat → Prop} {k : Nat}
    (hr : ∀ a b, r a b → a ≠ k → b ≠ k → s a b) {x j : Nat} (hj : j ≠ k)
    (h : Relation.ReflTransGen (fun a b => r a b ∧ a ≠ k) x j) :
    Relation.ReflTransGen (fun a b => s a b ∧ a ≠ k ∧ b ≠ k) x j := by
  induction h using Relation.ReflTransGen.head_induction_on with
  | refl => exact Relation.ReflTransGen.refl
  | head hstep rest ih =>
      rename_i a b
      obtain ⟨hab, hak⟩ := hstep
      have hbk : b ≠ k := by
        rintro rfl
        rcases Relation.ReflTransGen.cases_head rest with heq | ⟨e, ⟨_, hkk⟩, _⟩
        · exact hj heq.symm
        · exact hkk rfl
      exact Relation.ReflTransGen.head ⟨hr a b hab hak hbk, hak, hbk⟩ ih

/-- C1.  For any configuration and any cube position whose skip-BFS
keeps the rest connected, every move returned by `validMovesFrom` of that
position, when executed, yields a configuration on which `isConnected`
(no cuts, no skip) returns `true`: the moved cube lands face-adjacent to
a supporting cube distinct from itself, and the remaining cubes stay
connected among themselves exactly as in the skip-BFS. -/
theorem valid_moves_preserve_connectivity
    {c : Configuration} (h : wf c = true) {p : Position} {m : Move}
    (hm : m ∈ validMovesFrom c.occ p) {c' : Configuration}
    (hex : executeMove c m = .ok c') :
    c'.isConnected [] none = true := by
  rw [validMovesFrom] at hm
  by_cases hconn : c.occ.isConnected [] (some p) = true
  case neg =>
    rw [if_pos hconn] at hm
    exact absurd hm (List.not_mem_nil _)
  case pos =>
    rw [if_neg (not_not_intro hconn)] at hm
    simp only [List.mem_map, List.mem_filter] at hm
    obtain ⟨d, ⟨hdmem, hdval⟩, hmeq⟩ := hm
    subst hmeq
    obtain ⟨htgt, q, hq6, hqC, hqne⟩ := valid_support hdval
    -- decompose the execution: look up the cube, move it, re-mark
    have hex1 : (match c.getCube p with
        | none => (.error "Tried to move non-existing Cube" :
            Except String Configuration)
        | some cube => moveCube c cube (targetPosition p d)) = .ok c' := hex
    rcases hcube : c.getCube p with _ | cube
    · rw [hcube] at hex1
      exact Except.noConfusion (show (Except.error
        "Tried to move non-existing Cube" : Except String Configuration) =
        .ok c' from hex1)
    rw [hcube] at hex1
    have hex2 : moveCube c cube (targetPosition p d) = .ok c' := hex1
    rw [moveCube] at hex2
    rcases hmv : moveCubeUnmarked c cube (targetPosition p d) with e | c''
    · rw [hmv] at hex2
      exact Except.noConfusion (show (Except.error e :
        Except String Configuration) = .ok c' from hex2)
    rw [hmv] at hex2
    have hex3 : Except.ok (markComponents c'') = .ok c' := hex2
    injection hex3 with hc'
    have hwf'' : wf c'' = true := wf_moveCubeUnmarked h hmv
    -- the index of the moved cube
    have hcube3 : (match gridGet c.grid p with
        | some id => c.cubes[id]?
        | none => none) = some cube := hcube
    rcases hk : gridGet c.grid p with _ | k
    · simp only [hk] at hcube3
      exact Option.noConfusion hcube3
    simp only [hk] at hcube3
    have hcube2 : c.cubes[k]? = some cube := hcube3
    obtain ⟨hklt, hcubek⟩ := List.getElem?_eq_some_iff.mp hcube2
    obtain ⟨_, hkp⟩ := wf_lookup h hk
    have hcp : cube.p = p := by rw [← hcubek]; exact hkp
    -- the supporting cube next to the target cell
    have hqC' : c.hasCube q = true := by rw [getCube_occ_isSome]; exact hqC
    obtain ⟨w, hwlt, hwp⟩ := (wf_hasCube_iff h).mp hqC'
    have hwk : w ≠ k := by
      intro heq
      subst heq
      apply hqne
      rw [← hwp]
      exact hkp
    -- the shape of the moved configuration
    have htocc : c.hasCube (targetPosition p d) = false := by
      rw [getCube_occ_isSome]; exact htgt
    rw [moveCubeUnmarked, if_neg (by simp [htocc])] at hmv
    simp only [hcp, hk, hcube2, Option.getD_some] at hmv
    injection hmv with hmv
    have hcc : c''.cubes =
        c.cubes.set k { cube with p := targetPosition p d } := by
      rw [← hmv]
    have hlen'' : c''.cubes.length = c.cubes.length := by
      rw [hcc, List.length_set]
    have hpos : ∀ i, (hi : i < c.cubes.length) →
        (hi' : i < c''.cubes.length) →
        c''.cubes[i].p = if i = k then targetPosition p d
          else c.cubes[i].p := by
      intro i hi hi'
      have hi2 : i < (c.cubes.set k
          { cube with p := targetPosition p d }).length := by
        rw [List.length_set]; exact hi
      rcases eq_or_ne i k with rfl | hik
      · rw [if_pos rfl]
        simp only [hcc]
        rw [List.getElem_set_self hi2]
      · rw [if_neg hik]
        simp only [hcc]
        rw [List.getElem_set_ne (Ne.symm hik) hi2]
    -- edges away from the moved cube transfer unchanged
    have hE1 : ∀ a b, pushStep c.occ [] a b → a ≠ k → b ≠ k →
        pushStep c''.occ [] a b := by
      intro a b hab hak hbk
      obtain ⟨ha, hb, hadj, hb0⟩ := (pushStep_iff h a b).mp hab
      have ha' : a < c''.cubes.length := by rw [hlen'']; exact ha
      have hb' : b < c''.cubes.length := by rw [hlen'']; exact hb
      refine (pushStep_iff hwf'' a b).mpr ⟨ha', hb', ?_, hb0⟩
      rw [hpos a ha ha', hpos b hb hb', if_neg hak, if_neg hbk]
      exact hadj
    -- the new edges between the moved cube and its support
    have hklt'' : k < c''.cubes.length := by rw [hlen'']; exact hklt
    have hwlt'' : w < c''.cubes.length := by rw [hlen'']; exact hwlt
    have hkpos : c''.cubes[k].p = targetPosition p d := by
      have := hpos k hklt hklt''
      rwa [if_pos rfl] at this
    have hwpos : c''.cubes[w].p = q := by
      have := hpos w hwlt hwlt''
      rw [if_neg hwk] at this
      rw [this, hwp]
    have hedge_kw : w ≠ 0 → pushStep c''.occ [] k w := by
      intro hw0
      refine (pushStep_iff hwf'' k w).mpr ⟨hklt'', hwlt'', ?_, hw0⟩
      rw [hkpos, hwpos]
      exact hq6
    have hedge_wk : k ≠ 0 → pushStep c''.occ [] w k := by
      intro hk0
      refine (pushStep_iff hwf'' w k).mpr ⟨hwlt'', hklt'', ?_, hk0⟩
      rw [hkpos, hwpos]
      exact sixNbrs_symm hq6
    -- the source configuration minus the moved cube is connected
    have hlen0 : c.occ.ps.length = c.cubes.length := wf_occ_length
    have hn0 : c.occ.ps.length ≠ 0 := by rw [hlen0]; omega
    have hreach := (isConnected_skip_char c.occ [] (wf_occ_gb h)
      (show gridGet c.occ.grid p = some k from hk) hn0).mp hconn
    -- reduce the goal to reachability in the moved configuration
    subst hc'
    rw [Configuration.isConnected, markComponents_occ]
    have hn0'' : c''.occ.ps.length ≠ 0 := by
      rw [wf_occ_length, hlen'']; omega
    refine (isConnected_none_char c''.occ [] (wf_occ_gb hwf'') hn0'').mpr ?_
    intro j hj
    have hjn : j < c.cubes.length := by
      rw [wf_occ_length, hlen''] at hj; exact hj
    by_cases hone : 1 < c.cubes.length
    case neg =>
      have hj0 : j = 0 := by omega
      subst hj0
      exact Relation.ReflTransGen.refl
    case pos =>
      by_cases hk0 : k = 0
      · subst hk0
        have hstart : (if (0 : Nat) = 0 ∧ 1 < c.occ.ps.length then (1 : Nat)
            else 0) = 1 := if_pos ⟨rfl, by rw [hlen0]; exact hone⟩
        by_cases hj0 : j = 0
        · subst hj0
          exact Relation.ReflTransGen.refl
        · have hrj := (hreach j (by rw [hlen0]; exact hjn)).resolve_left hj0
          rw [hstart] at hrj
          have hrw := (hreach w (by rw [hlen0]; exact hwlt)).resolve_left hwk
          rw [hstart] at hrw
          have hTj := rtg_avoid_transfer hE1 hj0 hrj
          have hTw := rtg_avoid_transfer hE1 hwk hrw
          have hsymm : Symmetric (fun a b =>
              pushStep c''.occ [] a b ∧ a ≠ 0 ∧ b ≠ 0) := by
            rintro a b ⟨hab, ha0, hb0⟩
            obtain ⟨ha, hb, hadj, _⟩ := (pushStep_iff hwf'' a b).mp hab
            exact ⟨(pushStep_iff hwf'' b a).mpr
              ⟨hb, ha, sixNbrs_symm hadj, ha0⟩, hb0, ha0⟩
          have hTwj := Relation.ReflTransGen.trans
            (Relation.ReflTransGen.symmetric hsymm hTw) hTj
          have hfin : Relation.ReflTransGen (pushStep c''.occ []) w j :=
            Relation.ReflTransGen.mono (fun a b hab => hab.1) hTwj
          exact Relation.ReflTransGen.head (hedge_kw hwk) hfin
      · have hstart : (if k = 0 ∧ 1 < c.occ.ps.length then (1 : Nat)
            else 0) = 0 := if_neg (by rintro ⟨h1, _⟩; exact hk0 h1)
        rcases eq_or_ne j k with rfl | hjk
        · have hrw := (hreach w (by rw [hlen0]; exact hwlt)).resolve_left hwk
          rw [hstart] at hrw
          have hTw := rtg_avoid_transfer hE1 hwk hrw
          have hfinw : Relation.ReflTransGen (pushStep c''.occ []) 0 w :=
            Relation.ReflTransGen.mono (fun a b hab => hab.1) hTw
          exact Relation.ReflTransGen.tail hfinw (hedge_wk hk0)
        · have hrj := (hreach j (by rw [hlen0]; exact hjn)).resolve_left hjk
          rw [hstart] at hrj
          exact Relation.ReflTransGen.mono (fun a b hab => hab.1)
            (rtg_avoid_transfer hE1 hjk hrj)

/-- Witness for C1 on a concrete two-cube configuration: a corner move
of the cube at (1,0,0) around the cube at (0,0,0) keeps the
configuration connected. -/
theorem valid_moves_preserve_connectivity_witness :
    wf cfg2 = true ∧
    ({ position := (1, 0, 0), direction := .corner .y .x } : Move) ∈
      validMovesFrom cfg2.occ (1, 0, 0) ∧
    (executeMove cfg2 { position := (1, 0, 0), direction := .corner .y .x
      }).map (fun c => c.isConnected [] none) = .ok true := by
  have hw : wf cfg2 = true := by decide
  have hmem : ({ position := (1, 0, 0), direction := .corner .y .x } :
      Move) ∈ validMovesFrom cfg2.occ (1, 0, 0) := by decide
  refine ⟨hw, hmem, ?_⟩
  have hok : (match executeMove cfg2
      { position := (1, 0, 0), direction := .corner .y .x } with
      | .ok _ => true
      | .error _ => false) = true := by decide
  rcases hex : executeMove cfg2
      { position := (1, 0, 0), direction := .corner .y .x } with e | c'
  · rw [hex] at hok
    exact Bool.noConfusion hok
  · have hcn := valid_moves_preserve_connectivity hw hmem hex
    show Except.ok (c'.isConnected [] none) = .ok true
    rw [hcn]

/-! ## C9: the serialize / deserialize round trip -/

/-- One entry of the `cubes` array in the save file written by
`World.serialize`: the stored coordinates and the optional color
(`deserialize` falls back to `Color.BLUE` when the `color` key is
missing). -/
structure SerializedCube where
  x : Int
  y : Int
  z : Int
  color : Option Color
deriving DecidableEq, Repr

/-- The save-file object of `World.serialize` / `World.deserialize`
(`JSON.stringify` / `JSON.parse` round-trip this data unchanged, so the
embedding keeps the structured form). -/
structure SaveFile where
  version : Int
  cubes : List SerializedCube
deriving DecidableEq, Repr

/-- `World.serialize`: stores, for every cube in array order, the
coordinates of its `resetPosition` (not of its current position `p`) and
its color, under `_version` 1.  The `World` cube store follows the same
`cubes`-array-plus-grid representation as `Configuration`, so it is
embedded by the same structure. -/
def serialize (c : Configuration) : SaveFile :=
  { version := 1,
    cubes := c.cubes.map fun cu =>
      { x := cu.resetPosition.1, y := cu.resetPosition.2.1,
        z := cu.resetPosition.2.2, color := some cu.color } }

/-- `World.deserialize` into an empty world: rejects versions above 1,
then for every entry `addCube`s a fresh cube (`new Cube(...)` puts both
`p` and `resetPosition` at the stored coordinates), defaulting to
`Color.BLUE` when no color is stored. -/
def deserialize (data : SaveFile) : Except String Configuration :=
  if 1 < data.version then .error "Save file with incorrect version"
  else
    data.cubes.foldlM
      (fun c sc => addCube c (Cube.mk' (sc.x, sc.y, sc.z)
        (sc.color.getD Color.BLUE)))
      Configuration.empty

theorem markComponents_pcolor (c : Configuration) (cuts : List (Nat × Nat)) :
    (markComponents c cuts).cubes.map (fun cu => (cu.p, cu.color)) =
      c.cubes.map (fun cu => (cu.p, cu.color)) := by
  refine List.ext_getElem (by simp [markComponents_length]) ?_
  intro i h1 h2
  simp only [List.getElem_map]
  simp only [markComponents]
  rw [List.getElem_mapIdx]
  rw [applyMark_p, applyMark_color]

theorem wf_ps_nodup {c : Configuration} (h : wf c = true) :
    (c.cubes.map (·.p)).Nodup := by
  refine List.pairwise_iff_getElem.mpr ?_
  intro i j hi hj hij
  simp only [List.getElem_map]
  intro heq
  have hi' : i < c.cubes.length := by simpa using hi
  have hj' : j < c.cubes.length := by simpa using hj
  have := wf_pos_inj h hi' hj' heq
  omega

/-- The `forEach`/`addCube` loop of `deserialize`: starting from a
well-formed accumulator, adding entries at pairwise-distinct fresh
positions succeeds and appends the corresponding (position, color)
pairs in order. -/
theorem deserialize_fold (scs : List SerializedCube) :
    ∀ acc : Configuration, wf acc = true →
    (∀ sc ∈ scs, (((sc.x, sc.y, sc.z) : Position)) ∉ acc.cubes.map (·.p)) →
    ((scs.map fun sc => ((sc.x, sc.y, sc.z) : Position)).Nodup) →
    ∃ c', scs.foldlM (fun c sc => addCube c (Cube.mk' (sc.x, sc.y, sc.z)
        (sc.color.getD Color.BLUE))) acc = .ok c' ∧
      wf c' = true ∧
      c'.cubes.map (fun cu => (cu.p, cu.color)) =
        acc.cubes.map (fun cu => (cu.p, cu.color)) ++
          scs.map (fun sc => (((sc.x, sc.y, sc.z) : Position),
            sc.color.getD Color.BLUE)) := by
  induction scs with
  | nil =>
      intro acc h _ _
      exact ⟨acc, rfl, h, by simp⟩
  | cons sc rest ih =>
      intro acc h hfresh hnd
      have hnotmem := hfresh sc (List.mem_cons_self _ _)
      have hhc : acc.hasCube (sc.x, sc.y, sc.z) = false := by
        rcases hb : acc.hasCube (sc.x, sc.y, sc.z) with _ | _
        · rfl
        · obtain ⟨i, hi, hpe⟩ := (wf_hasCube_iff h).mp hb
          exact absurd (List.mem_map.mpr
            ⟨acc.cubes[i], List.getElem_mem hi, hpe⟩) hnotmem
      rcases haok : addCubeUnmarked acc
          (Cube.mk' (sc.x, sc.y, sc.z) (sc.color.getD Color.BLUE))
        with e | acc1
      · rw [addCubeUnmarked, if_neg (by simp [Cube.mk', hhc])] at haok
        exact Except.noConfusion haok
      have hwf1 := wf_addCubeUnmarked h haok
      have hwf2 := wf_markComponents hwf1 []
      have hcubes1 : acc1.cubes = acc.cubes ++
          [Cube.mk' (sc.x, sc.y, sc.z) (sc.color.getD Color.BLUE)] := by
        rw [addCubeUnmarked, if_neg (by simp [Cube.mk', hhc])] at haok
        injection haok with haok
        rw [← haok]
      have hstep : addCube acc
          (Cube.mk' (sc.x, sc.y, sc.z) (sc.color.getD Color.BLUE)) =
          .ok (markComponents acc1) := by
        rw [addCube, haok]
        rfl
      have hmap2 : (markComponents acc1).cubes.map
          (fun cu => (cu.p, cu.color)) =
          acc.cubes.map (fun cu => (cu.p, cu.color)) ++
            [(((sc.x, sc.y, sc.z) : Position), sc.color.getD Color.BLUE)] := by
        rw [markComponents_pcolor, hcubes1]
        simp [Cube.mk']
      have hps2 : (markComponents acc1).cubes.map (·.p) =
          acc.cubes.map (·.p) ++ [((sc.x, sc.y, sc.z) : Position)] := by
        rw [markComponents_ps, hcubes1]
        simp [Cube.mk']
      rw [List.map_cons, List.nodup_cons] at hnd
      have hfresh2 : ∀ s ∈ rest, (((s.x, s.y, s.z) : Position)) ∉
          (markComponents acc1).cubes.map (·.p) := by
        intro s hs hmem
        rw [hps2, List.mem_append] at hmem
        rcases hmem with hmem | hmem
        · exact hfresh s (List.mem_cons_of_mem _ hs) hmem
        · have heq : ((s.x, s.y, s.z) : Position) = (sc.x, sc.y, sc.z) := by
            simpa using hmem
          exact hnd.1 (List.mem_map.mpr ⟨s, hs, heq⟩)
      obtain ⟨c', hfold, hwfc', hmapc'⟩ := ih _ hwf2 hfresh2 hnd.2
      refine ⟨c', ?_, hwfc', ?_⟩
      · rw [List.foldlM_cons, hstep]
        exact hfold
      · rw [hmapc', hmap2, List.map_cons, List.append_assoc]
        rfl

/-- C9 (amended).  Deserializing the output of `serialize` reproduces
the (position, color) pairs of the configuration in array order —
provided every cube currently sits at its `resetPosition`, because
`serialize` stores `resetPosition`, not the current position `p`. -/
theorem serialize_roundtrip (c : Configuration) (h : wf c = true)
    (hreset : ∀ cu ∈ c.cubes, cu.resetPosition = cu.p) :
    ∃ c', deserialize (serialize c) = .ok c' ∧
      c'.cubes.map (fun cu => (cu.p, cu.color)) =
        c.cubes.map (fun cu => (cu.p, cu.color)) := by
  have hps : ((serialize c).cubes.map fun sc =>
      ((sc.x, sc.y, sc.z) : Position)) = c.cubes.map (·.p) := by
    rw [serialize, List.map_map]
    exact List.map_congr_left fun cu hcu => hreset cu hcu
  have hnd : ((serialize c).cubes.map fun sc =>
      ((sc.x, sc.y, sc.z) : Position)).Nodup := by
    rw [hps]
    exact wf_ps_nodup h
  have hfreshE : ∀ sc ∈ (serialize c).cubes,
      (((sc.x, sc.y, sc.z) : Position)) ∉
        Configuration.empty.cubes.map (·.p) := by
    intro sc _ hmem
    simp [Configuration.empty] at hmem
  obtain ⟨c', hfold, hwf', hmap⟩ :=
    deserialize_fold (serialize c).cubes Configuration.empty (by decide)
      hfreshE hnd
  refine ⟨c', ?_, ?_⟩
  · rw [deserialize, if_neg (by simp [serialize])]
    exact hfold
  · have hmaps : (serialize c).cubes.map (fun sc =>
        (((sc.x, sc.y, sc.z) : Position), sc.color.getD Color.BLUE)) =
        c.cubes.map fun cu => (cu.p, cu.color) := by
      rw [serialize, List.map_map]
      refine List.map_congr_left fun cu hcu => ?_
      show ((cu.resetPosition, cu.color) : Position × Color) = (cu.p, cu.color)
      rw [hreset cu hcu]
    rw [hmap, hmaps]
    rw [show Configuration.empty.cubes.map (fun cu => (cu.p, cu.color)) =
      [] from rfl]
    rw [List.nil_append]

/-- Witness for C9 on a concrete two-cube configuration (all cubes at
their reset position). -/
theorem serialize_roundtrip_witness :
    ∃ c', deserialize (serialize cfg2) = .ok c' ∧
      c'.cubes.map (fun cu => (cu.p, cu.color)) =
        cfg2.cubes.map (fun cu => (cu.p, cu.color)) :=
  serialize_roundtrip cfg2 (by decide) (by decide)

/-- A well-formed configuration whose single cube has been moved away
from its reset position: the cube sits at (1,0,0) but its
`resetPosition` is (0,0,0). -/
def cfgMoved : Configuration :=
  { cubes := [
      { p := (1, 0, 0), resetPosition := (0, 0, 0), color := Color.BLUE,
        componentStatus := .NONE, heavyChunk := false, chunkId := -1 }],
    grid := [((1, 0, 0), some 0)] }

/-- Counterexample to C9 as stated: `serialize` stores `resetPosition`,
so for a configuration with a cube away from its reset position the
round trip does not reproduce the (position, color) pairs, not even as a
multiset. -/
theorem serialize_roundtrip_counterexample :
    wf cfgMoved = true ∧
    (deserialize (serialize cfgMoved)).map
      (fun c' => decide (List.Perm
        (c'.cubes.map fun cu => (cu.p, cu.color))
        (cfgMoved.cubes.map fun cu => (cu.p, cu.color)))) = .ok false := by
  exact ⟨by decide, by decide⟩

/-! ## C4: `preservesChunkiness` restores the configuration -/

/-- The inner `j` loop of `CompactAlgorithm.checkMarks` from index `i`
onwards: marks every index of chunk `originalChunks[i]` as checked and
accumulates whether all of them kept one common new chunk id (the
immediate `return false` of the source is accumulated with `&&`, which
yields the same return value). -/
def checkMarksInner (orig new' : List Int) (i : Nat)
    (st : List Bool × Bool) : List Bool × Bool :=
  (List.range' i (orig.length - i)).foldl
    (fun st j =>
      if orig.getD j 0 = orig.getD i 0 ∧ orig.getD i 0 ≠ -1 then
        (st.1.set j true, st.2 && decide (new'.getD j 0 = new'.getD i 0))
      else st) st

/-- `CompactAlgorithm.checkMarks`: throws on length mismatch, otherwise
checks that every set of cubes sharing an original chunk id (other than
−1) still shares a single chunk id afterwards. -/
def checkMarks (orig new' : List Int) : Except String Bool :=
  if orig.length ≠ new'.length then
    .error "Checking chunk ids from configurations with different amount of cubes."
  else .ok (((List.range orig.length).foldl (fun st i =>
      if st.1.getD i false then st
      else checkMarksInner orig new' i (st.1.set i true, st.2))
    (List.replicate orig.length false, true)).2)

/-- The speculative-application loop of `preservesChunkiness`: walks the
move list, breaking (with the number of moves applied so far and the
`false` flag) at the first invalid move or missing source cube, and
otherwise `moveCube`s the source cube to the target. -/
def pcApply : List Move → Configuration →
    Except String (Bool × Nat × Configuration)
  | [], c => .ok (true, 0, c)
  | m :: rest, c =>
      if m.isValid c.occ then
        match c.getCube m.sourcePosition with
        | none => .ok (false, 0, c)
        | some cube =>
            match moveCube c cube m.target with
            | .error e => .error e
            | .ok c1 =>
                match pcApply rest c1 with
                | .error e => .error e
                | .ok (v, n, c2) => .ok (v, n + 1, c2)
      else .ok (false, 0, c)

/-- The rollback loop of `preservesChunkiness`, fed the applied prefix
in reverse: picks up the cube at each move's target and
`moveCubeUnmarked`s it back to the source (the non-null assertion on
`getCube` becomes an error). -/
def pcUndo : List Move → Configuration → Except String Configuration
  | [], c => .ok c
  | m :: rest, c =>
      match c.getCube m.target with
      | none => .error "Tried to undo a move with no Cube at its target"
      | some cube =>
          match moveCubeUnmarked c cube m.sourcePosition with
          | .error e => .error e
          | .ok c1 => pcUndo rest c1

/-- The restore loop at the end of `preservesChunkiness`:
`cubes[i].setComponentStatus(originalComponentStatus[i],
originalHeavyChunk[i]); cubes[i].setChunkId(originalChunkIds[i])`, with
the saved arrays read off the entry configuration `c`. -/
def restoreCube (c : Configuration) (i : Nat) (cu : Cube) : Cube :=
  (cu.setComponentStatus ((c.cubes.map (·.componentStatus)).getD i .NONE)
      ((c.cubes.map (·.heavyChunk)).getD i false)).setChunkId
    ((c.cubes.map (·.chunkId)).getD i (-1))

/-- `CompactAlgorithm.preservesChunkiness`: saves the component statuses,
heavy flags and chunk ids, speculatively applies the moves, compares
chunk marks, rolls every applied move back, and restores the saved
statuses on every cube. -/
def preservesChunkiness (c : Configuration) (moves : List Move) :
    Except String (Bool × Configuration) :=
  match pcApply moves c with
  | .error e => .error e
  | .ok (valid, applied, c1) =>
      match checkMarks (c.cubes.map (·.chunkId))
          (c1.cubes.map (·.chunkId)) with
      | .error e => .error e
      | .ok marksOk =>
          match pcUndo ((moves.take applied).reverse) c1 with
          | .error e => .error e
          | .ok c2 =>
              .ok (valid && marksOk,
                { c2 with cubes := c2.cubes.mapIdx (restoreCube c) })

theorem cube_eq_of_fields {a b : Cube} (h1 : a.p = b.p)
    (h2 : a.resetPosition = b.resetPosition) (h3 : a.color = b.color)
    (h4 : a.componentStatus = b.componentStatus)
    (h5 : a.heavyChunk = b.heavyChunk) (h6 : a.chunkId = b.chunkId) :
    a = b := by
  cases a
  cases b
  simp_all

theorem getCube_elim {c : Configuration} {p : Position} {cube : Cube}
    (h : c.getCube p = some cube) :
    ∃ k, gridGet c.grid p = some k ∧
      ∃ hk : k < c.cubes.length, c.cubes[k] = cube := by
  have h3 : (match gridGet c.grid p with
      | some id => c.cubes[id]?
      | none => none) = some cube := h
  rcases hg : gridGet c.grid p with _ | k
  · simp only [hg] at h3
    exact Option.noConfusion h3
  · simp only [hg] at h3
    obtain ⟨hk, he⟩ := List.getElem?_eq_some_iff.mp h3
    exact ⟨k, rfl, hk, he⟩

theorem moveCube_ok_elim {c : Configuration} {cube : Cube} {to' : Position}
    {cA : Configuration} (hm : moveCube c cube to' = .ok cA) :
    ∃ c0, moveCubeUnmarked c cube to' = .ok c0 ∧ cA = markComponents c0 := by
  rw [moveCube] at hm
  rcases h0 : moveCubeUnmarked c cube to' with e | c0 <;> rw [h0] at hm
  · exact Except.noConfusion (show (Except.error e :
      Except String Configuration) = .ok cA from hm)
  · refine ⟨c0, rfl, ?_⟩
    have hm2 : Except.ok (markComponents c0) = .ok cA := hm
    injection hm2 with hm2
    exact hm2.symm

theorem moveCubeUnmarked_target {c : Configuration} {cube : Cube}
    {to' : Position} {c0 : Configuration}
    (hmv : moveCubeUnmarked c cube to' = .ok c0) : c.hasCube to' = false := by
  rw [moveCubeUnmarked] at hmv
  rcases hb : c.hasCube to' with _ | _
  · rfl
  · rw [if_pos hb] at hmv
    exact Except.noConfusion hmv

theorem moveCubeUnmarked_shape {c : Configuration} {cube : Cube}
    {to' : Position} {c0 : Configuration} {k : Nat}
    (hk : gridGet c.grid cube.p = some k)
    (hmv : moveCubeUnmarked c cube to' = .ok c0) :
    c0.cubes = c.cubes.set k { (c.cubes[k]?.getD cube) with p := to' } := by
  rw [moveCubeUnmarked] at hmv
  rcases hb : c.hasCube to' with _ | _
  · rw [if_neg (by simp [hb])] at hmv
    simp only [hk] at hmv
    injection hmv with hmv
    rw [← hmv]
  · rw [if_pos hb] at hmv
    exact Except.noConfusion hmv

theorem pcUndo_append (l2 : List Move) : ∀ (l1 : List Move)
    (c : Configuration), pcUndo (l1 ++ l2) c =
      match pcUndo l1 c with
      | .error e => .error e
      | .ok c' => pcUndo l2 c' := by
  intro l1
  induction l1 with
  | nil => intro c; rfl
  | cons m rest ih =>
      intro c
      rw [List.cons_append]
      rcases hg : c.getCube m.target with _ | cube <;>
        simp only [pcUndo, hg]
      rcases hmu : moveCubeUnmarked c cube m.sourcePosition with e | c1 <;>
        simp only [hmu]
      exact ih c1

/-- The apply loop of `preservesChunkiness`, followed by the undo loop on
the reversed applied prefix, restores every cube's position, reset
position and color (the component marks are restored separately from the
saved arrays). -/
theorem pcApply_spec : ∀ (moves : List Move) (c : Configuration),
    wf c = true → ∀ v n c1, pcApply moves c = .ok (v, n, c1) →
    wf c1 = true ∧
    ∃ c2, pcUndo ((moves.take n).reverse) c1 = .ok c2 ∧ wf c2 = true ∧
      c2.cubes.length = c.cubes.length ∧
      (∀ i, (h1 : i < c2.cubes.length) → (h2 : i < c.cubes.length) →
        c2.cubes[i].p = c.cubes[i].p ∧
        c2.cubes[i].resetPosition = c.cubes[i].resetPosition ∧
        c2.cubes[i].color = c.cubes[i].color) := by
  intro moves
  induction moves with
  | nil =>
      intro c h v n c1 hres
      have hres2 : (Except.ok (true, 0, c) :
          Except String (Bool × Nat × Configuration)) = .ok (v, n, c1) := hres
      injection hres2 with hres2
      injection hres2 with hveq hres2
      injection hres2 with hneq hceq
      subst hveq
      subst hneq
      subst hceq
      exact ⟨h, c, rfl, h, rfl, fun i h1 h2 => ⟨rfl, rfl, rfl⟩⟩
  | cons m rest ih =>
      intro c h v n c1 hres
      simp only [pcApply] at hres
      by_cases hv' : m.isValid c.occ = true
      · rw [if_pos hv'] at hres
        rcases hcube : c.getCube m.sourcePosition with _ | cube
        · simp only [hcube] at hres
          injection hres with hres
          injection hres with hveq hres
          injection hres with hneq hceq
          subst hveq
          subst hneq
          subst hceq
          exact ⟨h, c, rfl, h, rfl, fun i h1 h2 => ⟨rfl, rfl, rfl⟩⟩
        · simp only [hcube] at hres
          rcases hmc : moveCube c cube m.target with e | cA
          · simp only [hmc] at hres
            exact Except.noConfusion hres
          simp only [hmc] at hres
          rcases hpa : pcApply rest cA with e | trip
          · simp only [hpa] at hres
            exact Except.noConfusion hres
          obtain ⟨v', n', c1'⟩ := trip
          simp only [hpa] at hres
          injection hres with hres
          injection hres with hveq hres
          injection hres with hneq hceq
          subst hveq
          subst hneq
          subst hceq
          obtain ⟨k, hk, hklt, hck⟩ := getCube_elim hcube
          obtain ⟨hklt2, hkp⟩ := wf_lookup h hk
          have hcp : cube.p = m.sourcePosition := by rw [← hck]; exact hkp
          obtain ⟨c0, hm0, hcA⟩ := moveCube_ok_elim hmc
          subst hcA
          have htgtF : c.hasCube m.target = false := moveCubeUnmarked_target hm0
          have htne : m.target ≠ m.sourcePosition := by
            intro heq
            have hsrcT := (wf_hasCube_iff h).mpr ⟨k, hklt, hkp⟩
            rw [← heq, htgtF] at hsrcT
            exact Bool.noConfusion hsrcT
          have hwf0 : wf c0 = true := wf_moveCubeUnmarked h hm0
          have hwfA : wf (markComponents c0) = true := wf_markComponents hwf0 []
          have hkq : gridGet c.grid cube.p = some k := by rw [hcp]; exact hk
          have hc0c : c0.cubes = c.cubes.set k { cube with p := m.target } := by
            have hsh := moveCubeUnmarked_shape hkq hm0
            rw [List.getElem?_eq_getElem hklt, Option.getD_some, hck] at hsh
            exact hsh
          have hlen0 : c0.cubes.length = c.cubes.length := by
            rw [hc0c, List.length_set]
          have hlenA : (markComponents c0).cubes.length = c.cubes.length := by
            rw [markComponents_length, hlen0]
          have hfA : ∀ i, (hiA : i < (markComponents c0).cubes.length) →
              (hic : i < c.cubes.length) →
              (markComponents c0).cubes[i].p =
                (if i = k then m.target else c.cubes[i].p) ∧
              (markComponents c0).cubes[i].resetPosition =
                c.cubes[i].resetPosition ∧
              (markComponents c0).cubes[i].color = c.cubes[i].color := by
            intro i hiA hic
            have hi0 : i < c0.cubes.length := by rw [hlen0]; exact hic
            have hi0' : i < (c.cubes.set k
                { cube with p := m.target }).length := by
              rw [List.length_set]; exact hic
            rw [markComponents_cubes_getElem c0 [] hiA hi0]
            rw [applyMark_p, applyMark_resetPosition, applyMark_color]
            rcases eq_or_ne i k with rfl | hik
            · rw [if_pos rfl]
              refine ⟨?_, ?_, ?_⟩ <;> simp only [hc0c] <;>
                rw [List.getElem_set_self hi0'] <;> rw [hck]
            · rw [if_neg hik]
              refine ⟨?_, ?_, ?_⟩ <;> simp only [hc0c] <;>
                rw [List.getElem_set_ne (Ne.symm hik) hi0']
          obtain ⟨hwf1, c2', hundo', hwf2', hlen2', hf2'⟩ :=
            ih (markComponents c0) hwfA v' n' c1' hpa
          have hlen2c : c2'.cubes.length = c.cubes.length := by
            rw [hlen2', hlenA]
          have hk2 : k < c2'.cubes.length := by rw [hlen2c]; exact hklt
          have hkA : k < (markComponents c0).cubes.length := by
            rw [hlenA]; exact hklt
          obtain ⟨hp2k, hr2k, hc2k⟩ := hf2' k hk2 hkA
          obtain ⟨hpAk, hrAk, hcAk⟩ := hfA k hkA hklt
          have hp2t : c2'.cubes[k].p = m.target := by
            rw [hp2k, hpAk, if_pos rfl]
          have hgc2 : c2'.getCube m.target = some c2'.cubes[k] := by
            have hwg := wf_getCube hwf2' hk2
            rw [hp2t] at hwg
            exact hwg
          have hsrcF : c2'.hasCube m.sourcePosition = false := by
            rcases hb : c2'.hasCube m.sourcePosition with _ | _
            · rfl
            · obtain ⟨i, hi, hpi⟩ := (wf_hasCube_iff hwf2').mp hb
              have hiA : i < (markComponents c0).cubes.length := by
                rw [← hlen2']; exact hi
              have hic : i < c.cubes.length := by rw [← hlenA]; exact hiA
              obtain ⟨hpi2, _, _⟩ := hf2' i hi hiA
              obtain ⟨hpiA, _, _⟩ := hfA i hiA hic
              rw [hpi2, hpiA] at hpi
              by_cases hik : i = k
              · rw [if_pos hik] at hpi
                exact absurd hpi htne
              · rw [if_neg hik] at hpi
                exact (hik (wf_pos_inj h hic hklt (by rw [hpi, ← hkp]))).elim
          rcases hu1 : moveCubeUnmarked c2' c2'.cubes[k] m.sourcePosition
            with e | c2
          · rw [moveCubeUnmarked, if_neg (by simp [hsrcF])] at hu1
            exact Except.noConfusion hu1
          have hwf2 : wf c2 = true := wf_moveCubeUnmarked hwf2' hu1
          have hku : gridGet c2'.grid (c2'.cubes[k]).p = some k :=
            wf_idx hwf2' hk2
          have hc2eq : c2.cubes = c2'.cubes.set k
              { c2'.cubes[k] with p := m.sourcePosition } := by
            have hsh := moveCubeUnmarked_shape hku hu1
            rw [List.getElem?_eq_getElem hk2, Option.getD_some] at hsh
            exact hsh
          have hlen2 : c2.cubes.length = c.cubes.length := by
            rw [hc2eq, List.length_set, hlen2c]
          refine ⟨hwf1, c2, ?_, hwf2, hlen2, ?_⟩
          · rw [List.take_succ_cons, List.reverse_cons, pcUndo_append]
            simp only [hundo']
            simp only [pcUndo, hgc2, hu1]
          · intro i h1 h2
            have hi2' : i < c2'.cubes.length := by
              rw [hc2eq, List.length_set] at h1; exact h1
            have hi2s : i < (c2'.cubes.set k
                { c2'.cubes[k] with p := m.sourcePosition }).length := by
              rw [List.length_set]; exact hi2'
            have hiA : i < (markComponents c0).cubes.length := by
              rw [← hlen2']; exact hi2'
            obtain ⟨hpi2, hri2, hci2⟩ := hf2' i hi2' hiA
            obtain ⟨hpiA, hriA, hciA⟩ := hfA i hiA h2
            rcases eq_or_ne i k with rfl | hik
            · have hset : c2.cubes[i] =
                  { c2'.cubes[i] with p := m.sourcePosition } := by
                simp only [hc2eq]
                rw [List.getElem_set_self hi2s]
              rw [hset]
              exact ⟨hkp.symm, by rw [hri2, hriA], by rw [hci2, hciA]⟩
            · have hset : c2.cubes[i] = c2'.cubes[i] := by
                simp only [hc2eq]
                rw [List.getElem_set_ne (Ne.symm hik) hi2s]
              rw [hset]
              exact ⟨by rw [hpi2, hpiA, if_neg hik],
                by rw [hri2, hriA], by rw [hci2, hciA]⟩
      · rw [if_neg hv'] at hres
        injection hres with hres
        injection hres with hveq hres
        injection hres with hneq hceq
        subst hveq
        subst hneq
        subst hceq
        exact ⟨h, c, rfl, h, rfl, fun i h1 h2 => ⟨rfl, rfl, rfl⟩⟩

/-- C4.  `preservesChunkiness` is a pure predicate: whenever the call
returns (true or false, valid or invalid moves in the list), every cube
has the same position, reset position, color, `componentStatus`,
`heavyChunk` and `chunkId` as before the call — the applied prefix is
rolled back in reverse and the saved marks are written back. -/
theorem preservesChunkiness_pure {c : Configuration} (h : wf c = true)
    (moves : List Move) {b : Bool} {c' : Configuration}
    (hres : preservesChunkiness c moves = .ok (b, c')) :
    c'.cubes = c.cubes := by
  rcases hpa : pcApply moves c with e | trip
  · simp only [preservesChunkiness, hpa] at hres
    exact Except.noConfusion hres
  obtain ⟨v, n, c1⟩ := trip
  obtain ⟨hwf1, c2, hundo, hwf2, hlen2, hf2⟩ := pcApply_spec moves c h v n c1 hpa
  rcases hcm : checkMarks (c.cubes.map (·.chunkId))
      (c1.cubes.map (·.chunkId)) with e | marksOk
  · simp only [preservesChunkiness, hpa, hcm] at hres
    exact Except.noConfusion hres
  simp only [preservesChunkiness, hpa, hcm, hundo] at hres
  injection hres with hres
  injection hres with hb hc'
  rw [← hc']
  show c2.cubes.mapIdx _ = c.cubes
  refine List.ext_getElem ?_ ?_
  · rw [List.length_mapIdx, hlen2]
  · intro i h1 h2
    rw [List.getElem_mapIdx]
    have hi2 : i < c2.cubes.length := by
      rw [List.length_mapIdx] at h1; exact h1
    obtain ⟨hp, hr, hcol⟩ := hf2 i hi2 h2
    have hms : i < (c.cubes.map (·.componentStatus)).length := by
      rw [List.length_map]; exact h2
    have hmh : i < (c.cubes.map (·.heavyChunk)).length := by
      rw [List.length_map]; exact h2
    have hmc2 : i < (c.cubes.map (·.chunkId)).length := by
      rw [List.length_map]; exact h2
    have hds : (c.cubes.map (·.componentStatus)).getD i .NONE =
        c.cubes[i].componentStatus := by
      rw [List.getD_eq_getElem?_getD, List.getElem?_eq_getElem hms,
        List.getElem_map]
      rfl
    have hdh : (c.cubes.map (·.heavyChunk)).getD i false =
        c.cubes[i].heavyChunk := by
      rw [List.getD_eq_getElem?_getD, List.getElem?_eq_getElem hmh,
        List.getElem_map]
      rfl
    have hdc : (c.cubes.map (·.chunkId)).getD i (-1) =
        c.cubes[i].chunkId := by
      rw [List.getD_eq_getElem?_getD, List.getElem?_eq_getElem hmc2,
        List.getElem_map]
      rfl
    refine cube_eq_of_fields ?_ ?_ ?_ ?_ ?_ ?_ <;>
      simp only [restoreCube, Cube.setComponentStatus, Cube.setChunkId]
    · exact hp
    · exact hr
    · exact hcol
    · exact hds
    · exact hdh
    · exact hdc

/-- Witness for C4 on a concrete configuration and a one-move list: the
cubes array after the call equals the one before. -/
theorem preservesChunkiness_pure_witness :
    wf cfg2 = true ∧
    (preservesChunkiness cfg2
      [{ position := (1, 0, 0), direction := .corner .y .x }]).map
      (fun r => decide (r.2.cubes = cfg2.cubes)) = .ok true := by
  have hw : wf cfg2 = true := by decide
  refine ⟨hw, ?_⟩
  have hok : (match preservesChunkiness cfg2
      [{ position := (1, 0, 0), direction := .corner .y .x }] with
      | .ok _ => true
      | .error _ => false) = true := by decide
  rcases hres : preservesChunkiness cfg2
      [{ position := (1, 0, 0), direction := .corner .y .x }] with e | r
  · rw [hres] at hok
    exact Bool.noConfusion hok
  · obtain ⟨b, c'⟩ := r
    have hfr := preservesChunkiness_pure hw
      [{ position := (1, 0, 0), direction := .corner .y .x }] hres
    show Except.ok (decide (c'.cubes = cfg2.cubes)) = .ok true
    rw [hfr]
    simp

/-! ## C7: `CompactAlgorithm.execute` throws when stuck -/

/-- `CompactAlgorithm.cost`: the weighted coordinate cost
`(x − minX) + 2(y − minY) + 4(z − minZ)`. -/
def cost (p : Position) (b : Bounds) : Int :=
  (p.1 - b.minX) + 2 * (p.2.1 - b.minY) + 4 * (p.2.2 - b.minZ)

/-- `CompactAlgorithm.inBounds`. -/
def inBounds (c : Configuration) (p : Position) : Bool :=
  let bounds := c.bounds
  decide (bounds.minX ≤ p.1) && decide (bounds.minY ≤ p.2.1) &&
  decide (bounds.minZ ≤ p.2.2) && decide (p.1 ≤ bounds.maxX) &&
  decide (p.2.1 ≤ bounds.maxY) && decide (p.2.2 ≤ bounds.maxZ)

/-- Stable insertion of a cube into a cost-descending list built right
to left: the cube is placed before the first cube of equal or lower
cost, so cubes of equal cost keep their original relative order — the
stable descending order also produced by the JavaScript
`sort((c1,c2) => cost(c2) - cost(c1))`. -/
def insertDesc (bds : Bounds) (x : Cube) : List Cube → List Cube
  | [] => [x]
  | y :: ys =>
      if cost y.p bds ≤ cost x.p bds then x :: y :: ys
      else y :: insertDesc bds x ys

/-- The cube ordering used by all the finders of `CompactAlgorithm`:
stable sort by descending cost. -/
def sortByCostDesc (bds : Bounds) (l : List Cube) : List Cube :=
  l.foldr (insertDesc bds) []

/-- Modelled from the spec: `Configuration.isLooseCube` is called by
`CompactAlgorithm.findLooseCubeMove` but its definition is not part of
the source tree; the spec describes loose cubes as the degree-1
attachments of a chunk, so a cell holds a loose cube when it is occupied
and has exactly one occupied face-neighbor. -/
def isLooseCube (c : Configuration) (p : Position) : Bool :=
  c.hasCube p &&
    decide (((sixNbrs p).filter fun q => c.hasCube q).length = 1)

/-- Modelled from the spec: `Configuration.hasLooseCube(p, d)` (also
absent from the source tree) checks that the face-neighbor of `p` in
direction `d` is a loose cube. -/
def hasLooseCube (c : Configuration) (p : Position) (a : Letter) : Bool :=
  isLooseCube c (stepLetter p a)

/-- The inner direction loop of `findFreeMove` for one cube: a direction
qualifies when the move is valid, strictly cost-decreasing, in bounds
and chunkiness-preserving; with `stop` set the first hit is returned
alone.  (`preservesChunkiness` restores the configuration it is handed,
so iteration continues on `c`.) -/
def freeMoveDirsGo (c : Configuration) (bds : Bounds) (cube : Cube)
    (stop : Bool) : List Direction → Except String (List Move)
  | [] => .ok []
  | d :: ds =>
      let m : Move := { position := cube.p, direction := d }
      if Move.isValid m c.occ &&
          decide (cost m.target bds < cost cube.p bds) &&
          inBounds c m.target then
        match preservesChunkiness c [m] with
        | .error e => .error e
        | .ok (true, _) =>
            if stop then .ok [m]
            else
              match freeMoveDirsGo c bds cube stop ds with
              | .error e => .error e
              | .ok rest => .ok (m :: rest)
        | .ok (false, _) => freeMoveDirsGo c bds cube stop ds
      else freeMoveDirsGo c bds cube stop ds

/-- The cube loop of `findFreeMove`: non-`CHUNK_STABLE` cubes are
skipped. -/
def findFreeMoveGo (c : Configuration) (bds : Bounds) (stop : Bool) :
    List Cube → Except String (List Move)
  | [] => .ok []
  | cube :: cs =>
      if cube.componentStatus ≠ ComponentStatus.CHUNK_STABLE then
        findFreeMoveGo c bds stop cs
      else
        match freeMoveDirsGo c bds cube stop moveDirections with
        | .error e => .error e
        | .ok found =>
            if stop ∧ found ≠ [] then .ok found
            else
              match findFreeMoveGo c bds stop cs with
              | .error e => .error e
              | .ok rest => .ok (found ++ rest)

/-- `CompactAlgorithm.findFreeMove`. -/
def findFreeMove (c : Configuration) (stop : Bool) :
    Except String (List Move) :=
  findFreeMoveGo c c.bounds stop (sortByCostDesc c.bounds c.cubes)

/-- `possibleCornerMoves = ['xy', 'yz', 'xz', 'Xz', 'Yz', 'Xy']` as
letter pairs. -/
def cornerPairs : List (Letter × Letter) :=
  [(.x, .y), (.y, .z), (.x, .z), (.X, .z), (.Y, .z), (.X, .y)]

/-- The corner-pattern loop of `findCornerMove` for one cube: the
diagonal cell must be free and both face-neighbors present; the first
`CHUNK_STABLE` one of them (`a` before `b`) becomes the helper, which
slides in the remaining direction while the cube slides after it. -/
def cornerPairGo (c : Configuration) (cube : Cube) (stop : Bool) :
    List (Letter × Letter) → Except String (List (Move × Move))
  | [] => .ok []
  | (a, b) :: ps =>
      match c.getCube (stepLetter (stepLetter cube.p a) b),
          c.getCube (stepLetter cube.p a), c.getCube (stepLetter cube.p b) with
      | none, some na, some nb =>
          let helper : Option (Cube × Letter × Letter) :=
            if na.componentStatus = ComponentStatus.CHUNK_STABLE then
              some (na, b, a)
            else if nb.componentStatus = ComponentStatus.CHUNK_STABLE then
              some (nb, a, b)
            else none
          match helper with
          | none => cornerPairGo c cube stop ps
          | some (hn, firstDir, secondDir) =>
              let firstMove : Move :=
                { position := hn.p, direction := .slide firstDir }
              let secondMove : Move :=
                { position := cube.p, direction := .slide secondDir }
              match preservesChunkiness c [firstMove, secondMove] with
              | .error e => .error e
              | .ok (true, _) =>
                  if stop then .ok [(firstMove, secondMove)]
                  else
                    match cornerPairGo c cube stop ps with
                    | .error e => .error e
                    | .ok rest => .ok ((firstMove, secondMove) :: rest)
              | .ok (false, _) => cornerPairGo c cube stop ps
      | _, _, _ => cornerPairGo c cube stop ps

/-- The cube loop of `findCornerMove`. -/
def findCornerMoveGo (c : Configuration) (stop : Bool) :
    List Cube → Except String (List (Move × Move))
  | [] => .ok []
  | cube :: cs =>
      if cube.componentStatus ≠ ComponentStatus.CHUNK_STABLE then
        findCornerMoveGo c stop cs
      else
        match cornerPairGo c cube stop cornerPairs with
        | .error e => .error e
        | .ok found =>
            if stop ∧ found ≠ [] then .ok found
            else
              match findCornerMoveGo c stop cs with
              | .error e => .error e
              | .ok rest => .ok (found ++ rest)

/-- `CompactAlgorithm.findCornerMove`. -/
def findCornerMove (c : Configuration) (stop : Bool) :
    Except String (List (Move × Move)) :=
  findCornerMoveGo c stop (sortByCostDesc c.bounds c.cubes)

/-- The descending scan of `checkXChainMove`
(`for (x = cube.p[0]−1; x ≥ minX; x−−)`): stops at the first `x` whose
cell is occupied with a free cell at `x−1`; that cube is the last of the
run unless it is a link cube.  The fuel is the exact iteration count
`(cube.p[0] − minX).toNat`. -/
def chainScanX (c : Configuration) (y z : Int) : Nat → Int → Option Cube
  | 0, _ => none
  | n + 1, x =>
      if ¬c.hasCube (x - 1, y, z) ∧ c.hasCube (x, y, z) then
        match c.getCube (x, y, z) with
        | none => none
        | some lastCube =>
            if lastCube.componentStatus = ComponentStatus.LINK_CUT ∨
                lastCube.componentStatus = ComponentStatus.LINK_STABLE then
              none
            else some lastCube
      else chainScanX c y z n (x - 1)

/-- The descending scan of `checkYChainMove`. -/
def chainScanY (c : Configuration) (x z : Int) : Nat → Int → Option Cube
  | 0, _ => none
  | n + 1, y =>
      if ¬c.hasCube (x, y - 1, z) ∧ c.hasCube (x, y, z) then
        match c.getCube (x, y, z) with
        | none => none
        | some lastCube =>
            if lastCube.componentStatus = ComponentStatus.LINK_CUT ∨
                lastCube.componentStatus = ComponentStatus.LINK_STABLE then
              none
            else some lastCube
      else chainScanY c x z n (y - 1)

/-- The descending scan of `checkZChainMove`. -/
def chainScanZ (c : Configuration) (x y : Int) : Nat → Int → Option Cube
  | 0, _ => none
  | n + 1, z =>
      if ¬c.hasCube (x, y, z - 1) ∧ c.hasCube (x, y, z) then
        match c.getCube (x, y, z) with
        | none => none
        | some lastCube =>
            if lastCube.componentStatus = ComponentStatus.LINK_CUT ∨
                lastCube.componentStatus = ComponentStatus.LINK_STABLE then
              none
            else some lastCube
      else chainScanZ c x y n (z - 1)

/-- `CompactAlgorithm.checkXChainMove`. -/
def checkXChainMove (c : Configuration) (cube : Cube) :
    Except String (Option (List Move)) :=
  if ¬c.hasCube (cube.p.1 - 1, cube.p.2.1, cube.p.2.2) then .ok none
  else
    match chainScanX c cube.p.2.1 cube.p.2.2
        (cube.p.1 - c.bounds.minX).toNat (cube.p.1 - 1) with
    | none => .ok none
    | some lastCube =>
        let target : Position :=
          (lastCube.p.1 - 1, lastCube.p.2.1, lastCube.p.2.2)
        if inBounds c target ∧ ¬c.hasCube target then
          match shortestMovePath c cube.p target with
          | .error e => .error e
          | .ok (chainMove, _) =>
              if chainMove.length = 0 then .error "Shortest path has length 0"
              else
                match preservesChunkiness c chainMove with
                | .error e => .error e
                | .ok (true, _) => .ok (some chainMove)
                | .ok (false, _) => .ok none
        else .ok none

/-- `CompactAlgorithm.checkYChainMove`. -/
def checkYChainMove (c : Configuration) (cube : Cube) :
    Except String (Option (List Move)) :=
  if ¬c.hasCube (cube.p.1, cube.p.2.1 - 1, cube.p.2.2) then .ok none
  else
    match chainScanY c cube.p.1 cube.p.2.2
        (cube.p.2.1 - c.bounds.minY).toNat (cube.p.2.1 - 1) with
    | none => .ok none
    | some lastCube =>
        let target : Position :=
          (lastCube.p.1, lastCube.p.2.1 - 1, lastCube.p.2.2)
        if inBounds c target ∧ ¬c.hasCube target then
          match shortestMovePath c cube.p target with
          | .error e => .error e
          | .ok (chainMove, _) =>
              if chainMove.length = 0 then .error "Shortest path has length 0"
              else
                match preservesChunkiness c chainMove with
                | .error e => .error e
                | .ok (true, _) => .ok (some chainMove)
                | .ok (false, _) => .ok none
        else .ok none

/-- `CompactAlgorithm.checkZChainMove`; note the source quirk: here only
`inBounds` guards the branch, and the empty-path/occupied-target test is
folded into the throw condition. -/
def checkZChainMove (c : Configuration) (cube : Cube) :
    Except String (Option (List Move)) :=
  if ¬c.hasCube (cube.p.1, cube.p.2.1, cube.p.2.2 - 1) then .ok none
  else
    match chainScanZ c cube.p.1 cube.p.2.1
        (cube.p.2.2 - c.bounds.minZ).toNat (cube.p.2.2 - 1) with
    | none => .ok none
    | some lastCube =>
        let target : Position :=
          (lastCube.p.1, lastCube.p.2.1, lastCube.p.2.2 - 1)
        if inBounds c target then
          match shortestMovePath c cube.p target with
          | .error e => .error e
          | .ok (chainMove, _) =>
              if chainMove.length = 0 ∧ ¬c.hasCube target then
                .error "Shortest path has length 0"
              else
                match preservesChunkiness c chainMove with
                | .error e => .error e
                | .ok (true, _) => .ok (some chainMove)
                | .ok (false, _) => .ok none
        else .ok none

/-- Which axis check of `findChainMove` to run. -/
inductive ChainCheck | cx | cy | cz

def runChainCheck (c : Configuration) (cube : Cube) :
    ChainCheck → Except String (Option (List Move))
  | .cx => checkXChainMove c cube
  | .cy => checkYChainMove c cube
  | .cz => checkZChainMove c cube

/-- The per-cube check sequence of `findChainMove`, in source order,
with the early return on `stopAfterFirst`. -/
def runChainChecks (c : Configuration) (cube : Cube) (stop : Bool) :
    List ChainCheck → Except String (List (List Move))
  | [] => .ok []
  | ck :: cks =>
      match runChainCheck c cube ck with
      | .error e => .error e
      | .ok none => runChainChecks c cube stop cks
      | .ok (some mv) =>
          if stop then .ok [mv]
          else
            match runChainChecks c cube stop cks with
            | .error e => .error e
            | .ok rest => .ok (mv :: rest)

/-- The loop break `if (limit && this.cost(cube.p, bounds) <= limit)`
with JavaScript truthiness: a limit of `0` (or none) never breaks. -/
def limitBreak (limit : Option Int) (cst : Int) : Bool :=
  match limit with
  | none => false
  | some l => decide (l ≠ 0) && decide (cst ≤ l)

/-- The cube loop of `findChainMove`: breaks at the first cube at or
below the cost limit, and for `CHUNK_STABLE` cubes on a minimal
bounding face runs the matching axis checks. -/
def findChainMoveGo (c : Configuration) (bds : Bounds) (stop : Bool)
    (limit : Option Int) : List Cube → Except String (List (List Move))
  | [] => .ok []
  | cube :: cs =>
      if limitBreak limit (cost cube.p bds) then .ok []
      else if cube.componentStatus = ComponentStatus.CHUNK_STABLE then
        match runChainChecks c cube stop
            ((if cube.p.1 = bds.minX then [.cz, .cy] else []) ++
              (if cube.p.2.1 = bds.minY then [.cz, .cx] else []) ++
              (if cube.p.2.2 = bds.minZ then [.cy, .cx] else [])) with
        | .error e => .error e
        | .ok found =>
            if stop ∧ found ≠ [] then .ok found
            else
              match findChainMoveGo c bds stop limit cs with
              | .error e => .error e
              | .ok rest => .ok (found ++ rest)
      else findChainMoveGo c bds stop limit cs

/-- `CompactAlgorithm.findChainMove`. -/
def findChainMove (c : Configuration) (stop : Bool) (limit : Option Int) :
    Except String (List (List Move)) :=
  findChainMoveGo c c.bounds stop limit (sortByCostDesc c.bounds c.cubes)

/-- The shared `secondLooseCube` snippet of `findLooseCubeMove`: first
the x-neighbor of `nbr`, then (overriding) the y-neighbor, when loose. -/
def secondLoose (c : Configuration) (nbr : Cube) : Option Cube :=
  let s1 : Option Cube :=
    if c.hasCube (nbr.p.1 - 1, nbr.p.2.1, nbr.p.2.2) &&
        isLooseCube c (nbr.p.1 - 1, nbr.p.2.1, nbr.p.2.2) then
      c.getCube (nbr.p.1 - 1, nbr.p.2.1, nbr.p.2.2)
    else none
  let s2 : Option Cube :=
    if c.hasCube (nbr.p.1, nbr.p.2.1 - 1, nbr.p.2.2) &&
        isLooseCube c (nbr.p.1, nbr.p.2.1 - 1, nbr.p.2.2) then
      c.getCube (nbr.p.1, nbr.p.2.1 - 1, nbr.p.2.2)
    else none
  match s2 with
  | some cu => some cu
  | none => s1

/-- The second move of a two-loose-cube pattern: `zX` when the second
loose cube lies left of the first, `zY` otherwise. -/
def secondMoveOf (lc second : Cube) : Move :=
  if second.p.1 < lc.p.1 then
    { position := second.p, direction := .corner .z .X }
  else
    { position := second.p, direction := .corner .z .Y }

/-- The branch tree of `findLooseCubeMove` for one loose cube: a cube
below a pillar neighbor triggers the upright x/y-ribbon patterns, a cube
below the end of a laying ribbon its x/y patterns; each returns its
hard-coded relocation move list. -/
def looseMoveFor (c : Configuration) (lc : Cube) : Option (List Move) :=
  if c.hasCube (lc.p.1, lc.p.2.1, lc.p.2.2 + 1) then
    match c.getCube (lc.p.1, lc.p.2.1, lc.p.2.2 + 1) with
    | none => none
    | some nbr =>
        if c.hasCube (nbr.p.1, nbr.p.2.1, nbr.p.2.2 + 1) then
          if c.hasCube (nbr.p.1 + 1, nbr.p.2.1, nbr.p.2.2) &&
              (!c.hasCube (nbr.p.1, nbr.p.2.1 - 1, nbr.p.2.2) ||
                hasLooseCube c nbr.p .y) &&
              (!c.hasCube (nbr.p.1, nbr.p.2.1 + 1, nbr.p.2.2) ||
                hasLooseCube c nbr.p .Y) then
            some ({ position := lc.p, direction := .slide .X } ::
              (match secondLoose c nbr with
              | some second => [secondMoveOf lc second]
              | none =>
                  [{ position := (lc.p.1 + 1, lc.p.2.1, lc.p.2.2),
                     direction := .slide .X },
                   { position := nbr.p, direction := .corner .z .X }]))
          else if c.hasCube (nbr.p.1, nbr.p.2.1 + 1, nbr.p.2.2) &&
              (!c.hasCube (nbr.p.1 - 1, nbr.p.2.1, nbr.p.2.2) ||
                hasLooseCube c nbr.p .x) &&
              (!c.hasCube (nbr.p.1 + 1, nbr.p.2.1, nbr.p.2.2) ||
                hasLooseCube c nbr.p .X) then
            some ({ position := lc.p, direction := .slide .Y } ::
              (match secondLoose c nbr with
              | some second => [secondMoveOf lc second]
              | none =>
                  [{ position := (lc.p.1, lc.p.2.1 + 1, lc.p.2.2),
                     direction := .slide .Y },
                   { position := nbr.p, direction := .corner .z .Y }]))
          else none
        else
          if c.hasCube (nbr.p.1, nbr.p.2.1 + 1, nbr.p.2.2) &&
              c.hasCube (nbr.p.1 + 1, nbr.p.2.1, nbr.p.2.2) then
            if c.hasCube (nbr.p.1 + 2, nbr.p.2.1, nbr.p.2.2) then
              some (match secondLoose c nbr with
              | some second =>
                  [{ position := lc.p, direction := .slide .Y },
                   secondMoveOf lc second]
              | none =>
                  [{ position := lc.p, direction := .slide .X },
                   { position := (nbr.p.1, nbr.p.2.1 + 1, nbr.p.2.2),
                     direction := .corner .z .X }])
            else
              some (match secondLoose c nbr with
              | some second =>
                  [{ position := lc.p, direction := .slide .X },
                   secondMoveOf lc second]
              | none =>
                  [{ position := lc.p, direction := .slide .Y },
                   { position := (nbr.p.1 + 1, nbr.p.2.1, nbr.p.2.2),
                     direction := .corner .z .Y }])
          else none
  else none

/-- The loose-cube loop: the first loose cube whose branch tree fires
returns its move list. -/
def findLooseMoveGo (c : Configuration) : List Cube → List Move
  | [] => []
  | lc :: ls =>
      match looseMoveFor c lc with
      | some mv => mv
      | none => findLooseMoveGo c ls

/-- `CompactAlgorithm.findLooseCubeMove`: loose cubes, ordered by
descending cost. -/
def findLooseCubeMove (c : Configuration) : List Move :=
  findLooseMoveGo c (sortByCostDesc c.bounds
    (c.cubes.filter fun cube => isLooseCube c cube.p))

/-- One iteration of the `while (!isXYZMonotone())` loop of
`CompactAlgorithm.execute` (a generator in the source; the embedding
returns the batch of moves the iteration yields, `[]` when the loop
guard exits, or the thrown message): free and corner candidates compete
by source-cube cost, a chain move up to that cost bound takes
precedence, then the best candidate, then a loose-cube move — and when
everything is empty, the `"No compacting moves possible."` throw. -/
def compactStep (c : Configuration) : Except String (List Move) :=
  if isXYZMonotone c then .ok []
  else
    match findFreeMove c true with
    | .error e => .error e
    | .ok freeMove =>
        match findCornerMove c true with
        | .error e => .error e
        | .ok cornerMove =>
            let moves : List (List Move) :=
              (match freeMove with
                | [] => []
                | m :: _ => [[m]]) ++
              (match cornerMove with
                | [] => []
                | (m1, m2) :: _ => [[m1, m2]])
            let best := moves.foldl
              (fun st mp =>
                let cst := cost (mp.headD
                  { position := (0, 0, 0),
                    direction := .slide .x }).sourcePosition c.bounds
                if st.1 < cst then (cst, some mp) else st)
              ((-1 : Int), (none : Option (List Move)))
            match findChainMove c true (some best.1) with
            | .error e => .error e
            | .ok (cm :: _) => .ok cm
            | .ok [] =>
                match best.2 with
                | some mv => .ok mv
                | none =>
                    match findLooseCubeMove c with
                    | [] => .error "No compacting moves possible."
                    | lm => .ok lm

/-- C7.  When the configuration is not xyz-monotone and no free move, no
corner move, no chain move (with the limit −1 that an empty candidate
set produces) and no loose-cube move exists, the `execute` iteration
throws `"No compacting moves possible."` rather than terminating
silently. -/
theorem compact_execute_stuck_throws (c : Configuration)
    (hmon : isXYZMonotone c = false)
    (hfree : findFreeMove c true = .ok [])
    (hcorner : findCornerMove c true = .ok [])
    (hchain : findChainMove c true (some (-1)) = .ok [])
    (hloose : findLooseCubeMove c = []) :
    compactStep c = .error "No compacting moves possible." := by
  rw [compactStep, if_neg (by simp [hmon])]
  simp only [hfree, hcorner, List.nil_append, List.foldl_nil, hchain, hloose]

/-- A connected, non-monotone three-cube configuration with only link
cubes and no loose-cube pattern: all four finders come up empty. -/
def cfgStuck : Configuration :=
  { cubes := [
      { p := (0, 0, 0), resetPosition := (0, 0, 0), color := Color.BLUE,
        componentStatus := .LINK_STABLE, heavyChunk := false, chunkId := -1 },
      { p := (1, 0, 0), resetPosition := (1, 0, 0), color := Color.BLUE,
        componentStatus := .LINK_CUT, heavyChunk := false, chunkId := -1 },
      { p := (1, 1, 0), resetPosition := (1, 1, 0), color := Color.BLUE,
        componentStatus := .LINK_STABLE, heavyChunk := false, chunkId := -1 }],
    grid := [((0, 0, 0), some 0), ((1, 0, 0), some 1), ((1, 1, 0), some 2)] }

/-- Witness for C7: on `cfgStuck` every hypothesis evaluates as required
and the iteration throws. -/
theorem compact_execute_stuck_throws_witness :
    isXYZMonotone cfgStuck = false ∧
    findFreeMove cfgStuck true = .ok [] ∧
    findCornerMove cfgStuck true = .ok [] ∧
    findChainMove cfgStuck true (some (-1)) = .ok [] ∧
    findLooseCubeMove cfgStuck = [] ∧
    compactStep cfgStuck = .error "No compacting moves possible." :=
  ⟨by decide, by decide, by decide, by decide, by decide,
    compact_execute_stuck_throws cfgStuck (by decide) (by decide)
      (by decide) (by decide) (by decide)⟩

end CubeSlider
